import Mathlib

set_option maxRecDepth 10000

/-!
Verification of the XSD collision pipeline (find_collisions.py, fix_collisions.py,
finalize_schema.py) via a shallow embedding.

An XML document is modelled as a tree of elements: each element has a fully
qualified tag (Clark notation, `{namespace}local`), an ordered attribute list,
inner text, and a list of child elements.  Python string operations used by the
source (`in`, `split`, `count`, `lower`, `format`) are modelled on `List Char`.
-/

/-! ### Character/string utilities modelling Python string operations -/

/-- Lower-case a character list (models `str.lower` on the ASCII data the tool handles). -/
def lcChars (l : List Char) : List Char := l.map Char.toLower

/-- `isPrefOf p s` = `s.startswith(p)`. -/
def isPrefOf : List Char → List Char → Bool
  | [], _ => true
  | _ :: _, [] => false
  | p :: ps, c :: cs => p == c && isPrefOf ps cs

/-- `hasSub pat s` models Python `pat in s` (substring containment). -/
def hasSub (pat : List Char) : List Char → Bool
  | [] => isPrefOf pat []
  | c :: rest => isPrefOf pat (c :: rest) || hasSub pat rest

/-- The portion of `s` strictly before the first occurrence of `pat`
(everything, when `pat` does not occur). -/
def takeBefore (pat : List Char) : List Char → List Char
  | [] => []
  | c :: rest => if isPrefOf pat (c :: rest) then [] else c :: takeBefore pat rest

/-- Fuelled scanner for Python `str.count` (non-overlapping, left to right).
The fuel only bounds recursion; `fuel = s.length` always suffices because the
scanned list strictly shrinks at every step. -/
def countSubAux (p0 : Char) (ps : List Char) : Nat → List Char → Nat
  | _, [] => 0
  | 0, _ :: _ => 0
  | fuel + 1, c :: rest =>
    if isPrefOf (p0 :: ps) (c :: rest) then 1 + countSubAux p0 ps fuel (List.drop ps.length rest)
    else countSubAux p0 ps fuel rest

/-- `countS pat s` = Python `s.count(pat)`. -/
def countS (pat : String) (s : List Char) : Nat :=
  match pat.data with
  | [] => s.length + 1
  | p0 :: ps => countSubAux p0 ps s.length s

/-- Fuelled scanner for Python `str.split(sep)` (all splits, non-overlapping).
`fuel = s.length` always suffices. -/
def pySplitAux (p0 : Char) (ps : List Char) : Nat → List Char → List Char → List (List Char)
  | _, acc, [] => [acc.reverse]
  | 0, acc, c :: rest => [acc.reverse ++ (c :: rest)]
  | fuel + 1, acc, c :: rest =>
    if isPrefOf (p0 :: ps) (c :: rest) then
      acc.reverse :: pySplitAux p0 ps fuel [] (List.drop ps.length rest)
    else pySplitAux p0 ps fuel (c :: acc) rest

/-- `pySplitHead pat s` = Python `s.split(pat)[0]`. -/
def pySplitHead (pat : String) (s : List Char) : List Char :=
  match pat.data with
  | [] => []
  | p0 :: ps => (pySplitAux p0 ps s.length [] s).headD []

/-- Split a character list at the first `':'`, when present: models
`v.split(":", 1)` guarded by `":" in v`. -/
def breakAtColon : List Char → Option (List Char × List Char)
  | [] => none
  | c :: rest =>
    if c = ':' then some ([], rest)
    else
      match breakAtColon rest with
      | none => none
      | some p => some (c :: p.1, p.2)

/-- Split a qualified reference value into `(prefix-with-colon-or-empty, local name)`,
exactly as both scripts do. -/
def splitQ (v : String) : String × String :=
  match breakAtColon v.data with
  | some p => (String.mk (p.1 ++ [':']), String.mk p.2)
  | none => ("", v)

/-! ### Decimal rendering of naturals (Python `"{n}".format`) -/

/-- Fuelled least-significant-first decimal digits; `fuel = n` suffices. -/
def digitsRevAux : Nat → Nat → List Nat
  | _, 0 => []
  | 0, _ + 1 => []
  | fuel + 1, n + 1 => ((n + 1) % 10) :: digitsRevAux fuel ((n + 1) / 10)

def digitsRev (n : Nat) : List Nat := digitsRevAux n n

def digitChar10 (d : Nat) : Char := Char.ofNat (48 + d)

/-- Decimal string of a natural number. -/
def natStr (n : Nat) : String :=
  if n = 0 then "0" else String.mk (((digitsRev n).reverse).map digitChar10)

/-- The Resolver's default fallback suffix `"_x{n}".format(n=·)`. -/
def fallbackSfx (n : Nat) : String := "_x" ++ natStr n

/-! ### The document model -/

mutual
/-- An XML element: qualified tag, attribute list, inner text, children. -/
inductive Elem : Type where
  | mk : String → List (String × String) → String → ElemList → Elem
/-- Children lists (a mutual inductive so that all tree recursions are structural). -/
inductive ElemList : Type where
  | nil : ElemList
  | cons : Elem → ElemList → ElemList
end

def Elem.tag : Elem → String
  | .mk t _ _ _ => t

def Elem.attrs : Elem → List (String × String)
  | .mk _ a _ _ => a

def Elem.text : Elem → String
  | .mk _ _ tx _ => tx

def Elem.kids : Elem → ElemList
  | .mk _ _ _ cs => cs

def ElemList.toList : ElemList → List Elem
  | .nil => []
  | .cons e l => e :: ElemList.toList l

def Elem.children (e : Elem) : List Elem := e.kids.toList

def ofList : List Elem → ElemList
  | [] => .nil
  | e :: l => .cons e (ofList l)

/-- `getA e k` models `e.get(k)` / `e.attrib.get(k)` (attribute lookup). -/
def getA (e : Elem) (k : String) : Option String :=
  match e.attrs.find? (fun p => p.1 == k) with
  | some p => some p.2
  | none => none

/-- Replace the value of key `k` in an attribute list (in place, as an XML
attribute map does), appending when absent. -/
def setPair : List (String × String) → String → String → List (String × String)
  | [], k, v => [(k, v)]
  | (k', v') :: t, k, v => if k' = k then (k, v) :: t else (k', v') :: setPair t k v

/-- `setA e k v` models `e.set(k, v)`. -/
def setA (e : Elem) (k v : String) : Elem := .mk e.tag (setPair e.attrs k v) e.text e.kids

/-! ### Namespace constants shared by all three scripts -/

def xsNS : String := "http://www.w3.org/2001/XMLSchema"

/-- `q(local)` = `"{XS_NS}local"` (Clark notation). -/
def q (ln : String) : String := "\x7b" ++ xsNS ++ "\x7d" ++ ln

/-- `GLOBAL_KINDS` / `GLOBAL_COMPONENTS`. -/
def globalKinds : List String := [q "element", q "complexType", q "simpleType"]

/-- `GLOBAL_DEFINITIONS` (finalize_schema.py): only type definitions. -/
def globalDefKinds : List String := [q "complexType", q "simpleType"]

/-- `REF_ATTRS`. -/
def refAttrs : List String := ["type", "base", "ref"]

/-! ### Serialization and iteration (`ET.tostring`, `elem.iter`, `iter_all`) -/

mutual
/-- Serialized text of a subtree (models `text_blob` / `ET.tostring`). -/
def serialize : Elem → String
  | .mk t a tx cs =>
    "<" ++ t ++ (a.foldl (fun s p => s ++ " " ++ p.1 ++ "=" ++ "\"" ++ p.2 ++ "\"") "")
      ++ ">" ++ tx ++ serializeL cs ++ "</" ++ t ++ ">"
def serializeL : ElemList → String
  | .nil => ""
  | .cons e l => serialize e ++ serializeL l
end

mutual
/-- All elements of a subtree in document order, self first
(models `elem.iter()` and `iter_all`). -/
def allElems : Elem → List Elem
  | .mk t a tx cs => Elem.mk t a tx cs :: allElemsL cs
def allElemsL : ElemList → List Elem
  | .nil => []
  | .cons e l => allElems e ++ allElemsL l
end

def textBlob (e : Elem) : List Char := (serialize e).data

/-! ### The affinity heuristic (`guess_affinity`) -/

/-- One step of the attribute scan: bump the `(rq, rs)` scores for one
attribute of one node. -/
def attrBump (n : Elem) (k : String) (acc : Nat × Nat) : Nat × Nat :=
  let v := lcChars ((getA n k).getD "").data
  let acc1 := if hasSub "rq".data v then (acc.1 + 1, acc.2) else acc
  if hasSub "rs".data v then (acc1.1, acc1.2 + 1) else acc1

/-- The body of `for n in elem.iter(): for attr in ("name","type","base"): ...`. -/
def nodeBump (acc : Nat × Nat) (n : Elem) : Nat × Nat :=
  attrBump n "base" (attrBump n "type" (attrBump n "name" acc))

/-- `guess_affinity(elem)`: `some "_Rq"` / `some "_Rs"` / `none`. -/
def guessAffinity (e : Elem) : Option String :=
  let blob := lcChars (textBlob e)
  let rq0 := countS "request" blob + countS "rqecho" blob + countS ">rq<" blob
  let rs0 := countS "response" blob + countS "echoflag" blob + countS ">rs<" blob
  let p := (allElems e).foldl nodeBump (rq0, rs0)
  if p.1 ≥ p.2 + 2 then some "_Rq"
  else if p.2 ≥ p.1 + 2 then some "_Rs"
  else if p.1 > p.2 ∧ p.1 ≥ 2 then some "_Rq"
  else if p.2 > p.1 ∧ p.2 ≥ 2 then some "_Rs"
  else none

/-! ### Collision Detector (`find_collisions.py`) -/

/-- Is this child a global declaration (global kind tag carrying a `name`)? -/
def isGlobalDecl (e : Elem) : Bool := globalKinds.contains e.tag && (getA e "name").isSome

/-- The name of a global declaration (defined for declarations, where the
`name` attribute is present). -/
def gName (e : Elem) : String := (getA e "name").getD ""

/-- Global declarations among a child list, with their child indices
(the index models Python object identity, `id(node)`). -/
def globalsFrom (j : Nat) : List Elem → List (Nat × Elem)
  | [] => []
  | c :: rest =>
    if isGlobalDecl c then (j, c) :: globalsFrom (j + 1) rest else globalsFrom (j + 1) rest

def globalsOf (root : Elem) : List (Nat × Elem) := globalsFrom 0 root.children

/-- First-occurrence deduplication (insertion order of `defaultdict` keys). -/
def dedupAux (seen : List String) : List String → List String
  | [] => []
  | x :: t => if seen.contains x then dedupAux seen t else x :: dedupAux (x :: seen) t

/-- The names of the global declarations in first-occurrence order:
the key order of `by_name`, and the initial `chosen_names` set. -/
def keysInOrder (root : Elem) : List String :=
  dedupAux [] ((globalsOf root).map fun p => gName p.2)

/-- The group of global declarations named `n`, in document order. -/
def membersOf (root : Elem) (n : String) : List (Nat × Elem) :=
  (globalsOf root).filter fun p => gName p.2 == n

/-- `by_name`: names in insertion order, each with its group. -/
def byName (root : Elem) : List (String × List (Nat × Elem)) :=
  (keysInOrder root).map fun n => (n, membersOf root n)

/-- The duplicate groups (`dupes`). -/
def dupGroups (root : Elem) : List (String × List (Nat × Elem)) :=
  (byName root).filter fun g => g.2.length > 1

/-- The Detector: `none` models the root-structure error (exit 2, nothing
reported); otherwise the duplicate-group report. -/
def findCollisions (root : Elem) : Option (List (String × List (Nat × Elem))) :=
  if root.tag == q "schema" then some (dupGroups root) else none

/-- Detector process exit status. -/
def detectExit (root : Elem) : Nat := if root.tag == q "schema" then 0 else 2

/-! ### Collision Resolver (`fix_collisions.py`) -/

/-- The `while new_name in chosen_names` loop.  The Python loop is unbounded;
here it carries fuel, and `bumpFrom_fresh`/`bumpFrom_least` below prove that
`chosen.length + 1` fuel always reaches a fresh name, i.e. the fuelled loop
computes exactly what the unbounded loop computes. -/
def bumpFrom (name : String) (chosen : List String) : String → Nat → Nat → String
  | cur, _, 0 => cur
  | cur, bump, fuel + 1 =>
    if chosen.contains cur then bumpFrom name chosen (name ++ fallbackSfx (bump + 1)) (bump + 1) fuel
    else cur

/-- Choose the new name for the `i`-th member (1-based) of a duplicate group:
heuristic suffix when `guess_affinity` decides, else the numbered fallback,
then bump past collisions with `chosen`. -/
def pickName (node : Elem) (name : String) (chosen : List String) (i : Nat) : String :=
  let base := name ++ (match guessAffinity node with | some s => s | none => fallbackSfx i)
  bumpFrom name chosen base i (chosen.length + 1)

/-- Fold of `for i, node in enumerate(nodes, start=1): if i == 1: continue ...`
over the members after the first, threading `(chosen_names, rename_plan)`.
A plan entry is `(child index, old name, new name)`. -/
def planTail (name : String) :
    Nat → List (Nat × Elem) → List String × List (Nat × String × String) →
    List String × List (Nat × String × String)
  | _, [], st => st
  | i, m :: rest, st =>
    let nn := pickName m.2 name st.1 i
    planTail name (i + 1) rest (nn :: st.1, st.2 ++ [(m.1, name, nn)])

/-- Process one `by_name` group: the first member is kept, the rest are renamed
(`enumerate(..., start=1)` with `i == 1` skipped is processing the tail with
`i` starting at 2). -/
def planGroup (st : List String × List (Nat × String × String))
    (g : String × List (Nat × Elem)) : List String × List (Nat × String × String) :=
  planTail g.1 2 g.2.tail st

/-- The state after building the full rename plan: final `chosen_names`
and `rename_plan`. -/
def buildState (root : Elem) : List String × List (Nat × String × String) :=
  (byName root).foldl planGroup (keysInOrder root, [])

def renamePlanOf (root : Elem) : List (Nat × String × String) := (buildState root).2

/-- Plan lookup by child index (models `rename_plan[id(node)]`). -/
def lookupIdx (plan : List (Nat × String × String)) (j : Nat) : Option (String × String) :=
  match plan.find? (fun t => t.1 == j) with
  | some t => some t.2
  | none => none

/-- Step 3 of the Resolver: apply the `@name` changes to the root's children. -/
def renameChildren (plan : List (Nat × String × String)) : Nat → List Elem → List Elem
  | _, [] => []
  | j, c :: rest =>
    (match lookupIdx plan j with
     | some nw => setA c "name" nw.2
     | none => c) :: renameChildren plan (j + 1) rest

def applyRenames (root : Elem) (plan : List (Nat × String × String)) : Elem :=
  .mk root.tag root.attrs root.text (ofList (renameChildren plan 0 root.children))

/-- Map lookup on an association list (Python `dict` lookup by key). -/
def lookupStr (m : List (String × String)) (k : String) : Option String :=
  match m.find? (fun p => p.1 == k) with
  | some p => some p.2
  | none => none

/-- Step 4, one attribute of one element: update a `{type, base, ref}`
attribute to the canonical name of its group (guarded `e.set`). -/
def updAttr (changed : List String) (canon : List (String × String))
    (st : Elem × Nat) (a : String) : Elem × Nat :=
  match getA st.1 a with
  | none => st
  | some v =>
    if v = "" then st
    else
      let pr := splitQ v
      if changed.contains pr.2 then
        let cn := (lookupStr canon pr.2).getD pr.2
        let nv := pr.1 ++ cn
        if nv ≠ v then (setA st.1 a nv, st.2 + 1) else st
      else st

/-- Step 4 on one element: all three `REF_ATTRS` in order. -/
def updNode (changed : List String) (canon : List (String × String)) (e : Elem) : Elem × Nat :=
  refAttrs.foldl (updAttr changed canon) (e, 0)

mutual
/-- Step 4 over the whole tree (`for e in iter_all(root)`), counting updates. -/
def updAll (changed : List String) (canon : List (String × String)) : Elem → Elem × Nat
  | .mk t a tx cs =>
    let p := updNode changed canon (Elem.mk t a tx cs)
    let r := updAllL changed canon cs
    (Elem.mk p.1.tag p.1.attrs p.1.text r.1, p.2 + r.2)
def updAllL (changed : List String) (canon : List (String × String)) : ElemList → ElemList × Nat
  | .nil => (.nil, 0)
  | .cons e l =>
    let r1 := updAll changed canon e
    let r2 := updAllL changed canon l
    (.cons r1.1 r2.1, r1.2 + r2.2)
end

/-- The Resolver's observable outcome: structure error (exit 2, no output),
"no duplicates to fix" (exit 0, no output written), or the fixed document
with the reported reference-update count. -/
inductive FixResult : Type where
  | rootErr : FixResult
  | noDup : FixResult
  | fixed : Elem → Nat → FixResult

/-- `fix_collisions.main` on a parsed document. -/
def fixCollisions (root : Elem) : FixResult :=
  if root.tag ≠ q "schema" then .rootErr
  else
    let plan := renamePlanOf root
    if plan.isEmpty then .noDup
    else
      let root2 := applyRenames root plan
      let changed := plan.map fun t => t.2.1
      let canon := changed.map fun n => (n, n)
      let r := updAll changed canon root2
      .fixed r.1 r.2

/-- Resolver process exit status. -/
def fixExit (root : Elem) : Nat :=
  match fixCollisions root with
  | .rootErr => 2
  | _ => 0

/-- The in-memory document after the Resolver runs (no document when the
root check fails; the untouched input when there is nothing to fix). -/
def resolverDoc (root : Elem) : Option Elem :=
  match fixCollisions root with
  | .rootErr => none
  | .noDup => some root
  | .fixed o _ => some o

/-! ### Schema Finalizer (`finalize_schema.py`) -/

/-- `get_global_names` (as an in-order list; the source builds a set, and all
uses below are membership-based). -/
def globalNamesList (root : Elem) : List String :=
  (globalsOf root).map fun p => gName p.2

/-- `renamed_components = fixed_globals - original_globals`. -/
def introducedNames (orig fxd : Elem) : List String :=
  (globalNamesList fxd).filter fun n => !((globalNamesList orig).contains n)

/-- Infer the ambiguous base name of one introduced name:
`renamed.split("_x")[0]` when `"_x" in renamed`, else `renamed.split("_R")[0]`
when `"_R" in renamed`, else nothing. -/
def baseNameOf (renamed : String) : Option String :=
  if hasSub "_x".data renamed.data then some (String.mk (pySplitHead "_x" renamed.data))
  else if hasSub "_R".data renamed.data then some (String.mk (pySplitHead "_R" renamed.data))
  else none

/-- The `ambiguous_names` set (as a dedup list). -/
def ambiguousNames (orig fxd : Elem) : List String :=
  dedupAux [] ((introducedNames orig fxd).filterMap baseNameOf)

/-- The Finalizer's rename plan: each ambiguous name maps to itself + `"Type"`. -/
def renamePlanFin (orig fxd : Elem) : List (String × String) :=
  (ambiguousNames orig fxd).map fun n => (n, n ++ "Type")

/-- Step 3 Part A on one direct child: rename it when it is a global
complexType/simpleType definition (never an element) whose name is a plan key. -/
def rdChild (plan : List (String × String)) (c : Elem) : Elem :=
  if globalDefKinds.contains c.tag then
    match getA c "name" with
    | some nm =>
      match lookupStr plan nm with
      | some nn => setA c "name" nn
      | none => c
    | none => c
  else c

/-- Step 3 Part A: rename the global complexType/simpleType definitions
(direct children only, never elements) whose name is a plan key. -/
def renameDefs (plan : List (String × String)) (root : Elem) : Elem :=
  .mk root.tag root.attrs root.text (ofList (root.children.map (rdChild plan)))

/-- Step 3 Part B, one attribute of one element: rewrite a reference whose
local name is a plan key, keeping the prefix (unconditional `set` + count). -/
def finAttr (plan : List (String × String)) (st : Elem × Nat) (a : String) : Elem × Nat :=
  match getA st.1 a with
  | none => st
  | some v =>
    if v = "" then st
    else
      let pr := splitQ v
      match lookupStr plan pr.2 with
      | some nn => (setA st.1 a (pr.1 ++ nn), st.2 + 1)
      | none => st

def finNode (plan : List (String × String)) (e : Elem) : Elem × Nat :=
  refAttrs.foldl (finAttr plan) (e, 0)

mutual
/-- Step 3 Part B over the whole tree (`original_root.iter('*')`). -/
def finAll (plan : List (String × String)) : Elem → Elem × Nat
  | .mk t a tx cs =>
    let p := finNode plan (Elem.mk t a tx cs)
    let r := finAllL plan cs
    (Elem.mk p.1.tag p.1.attrs p.1.text r.1, p.2 + r.2)
def finAllL (plan : List (String × String)) : ElemList → ElemList × Nat
  | .nil => (.nil, 0)
  | .cons e l =>
    let r1 := finAll plan e
    let r2 := finAllL plan l
    (.cons r1.1 r2.1, r1.2 + r2.2)
end

/-- `finalize_schema.main` on two parsed documents: `none` models "no
ambiguous names detected", exit 0, nothing written; otherwise the final
document and the reported reference-update count. -/
def finalizeResult (orig fxd : Elem) : Option (Elem × Nat) :=
  let plan := renamePlanFin orig fxd
  if plan.isEmpty then none
  else some (finAll plan (renameDefs plan orig))

/-- Finalizer process exit status: the script performs no root-element check;
every path after a successful parse exits 0 (`sys.exit(0)` or falling off
`main`). -/
def finalizeExit (_orig _fxd : Elem) : Nat := 0

/-! ### Resolution of references

A reference attribute value resolves in a document when its local-name portion
is the name of some global declaration of that document. -/

/-- The local-name portions of all nonempty `{type, base, ref}` attribute
values anywhere in a document. -/
def refLocalsOf (doc : Elem) : List String :=
  (allElems doc).flatMap fun e =>
    refAttrs.filterMap fun a =>
      match getA e a with
      | some v => if v ≠ "" then some (splitQ v).2 else none
      | none => none

/-! ### Claim-side definitions

These follow the wording of the specification, to be compared with the
definitions above that are translated from the source. -/

/-- The attribute order named by the heuristic claim. -/
def refNameAttrs : List String := ["name", "type", "base"]

/-- Claim side of C6: the number of `name`/`type`/`base` attribute values in
the subtree containing `"rq"` case-insensitively. -/
def rqAttrCount (e : Elem) : Nat :=
  ((allElems e).flatMap fun n => refNameAttrs.map fun k => lcChars ((getA n k).getD "").data).countP
    (fun v => hasSub "rq".data v)

/-- Claim side of C6: symmetric count for `"rs"`. -/
def rsAttrCount (e : Elem) : Nat :=
  ((allElems e).flatMap fun n => refNameAttrs.map fun k => lcChars ((getA n k).getD "").data).countP
    (fun v => hasSub "rs".data v)

/-- Claim side of C6: the full heuristic as the claim states it — blob counts
plus attribute counts, then the four-step decision chain. -/
def affinitySpec (e : Elem) : Option String :=
  let blob := lcChars (textBlob e)
  let rq := countS "request" blob + countS "rqecho" blob + countS ">rq<" blob + rqAttrCount e
  let rs := countS "response" blob + countS "echoflag" blob + countS ">rs<" blob + rsAttrCount e
  if rq ≥ rs + 2 then some "_Rq"
  else if rs ≥ rq + 2 then some "_Rs"
  else if rq > rs ∧ rq ≥ 2 then some "_Rq"
  else if rs > rq ∧ rs ≥ 2 then some "_Rs"
  else none

/-- Claim side of C4: the portion of an introduced name before the first
occurrence of `"_x"` when present, else before the first `"_R"` when present. -/
def specBase (r : String) : Option String :=
  if hasSub "_x".data r.data then some (String.mk (takeBefore "_x".data r.data))
  else if hasSub "_R".data r.data then some (String.mk (takeBefore "_R".data r.data))
  else none

/-- Claim side of C5, reference attributes: an attribute named `type`, `base`
or `ref` whose local-name portion is a plan key is rewritten to the new name,
preserving the namespace prefix exactly; everything else is untouched. -/
def claimRefPair (plan : List (String × String)) (p : String × String) : String × String :=
  if refAttrs.contains p.1 ∧ p.2 ≠ "" then
    match lookupStr plan (splitQ p.2).2 with
    | some nn => (p.1, (splitQ p.2).1 ++ nn)
    | none => p
  else p

/-- Claim side of C5, declarations: on a global complexType/simpleType child
(never an element), a `name` attribute that is a plan key becomes the planned
new name. -/
def claimNamePair (plan : List (String × String)) (t : String) (p : String × String) : String × String :=
  if globalDefKinds.contains t ∧ p.1 = "name" then
    match lookupStr plan p.2 with
    | some nn => (p.1, nn)
    | none => p
  else p

mutual
/-- Claim side of C5: rewrite every reference attribute in a subtree. -/
def claimDeep (plan : List (String × String)) : Elem → Elem
  | .mk t a tx cs => .mk t (a.map (claimRefPair plan)) tx (claimDeepL plan cs)
def claimDeepL (plan : List (String × String)) : ElemList → ElemList
  | .nil => .nil
  | .cons e l => .cons (claimDeep plan e) (claimDeepL plan l)
end

/-- Claim side of C5: one pass over the original document — rename the
qualifying global definitions among the root's children and rewrite every
reference attribute anywhere. -/
def claimApply (plan : List (String × String)) (root : Elem) : Elem :=
  .mk root.tag (root.attrs.map (claimRefPair plan)) root.text
    (ofList (root.children.map fun c =>
      claimDeep plan (.mk c.tag (c.attrs.map (claimNamePair plan c.tag)) c.text c.kids)))

/-- No element carries two attributes with the same key (true of any parsed
XML document; attribute maps are dictionaries in the source). -/
def nodupKeys : List (String × String) → Bool
  | [] => true
  | p :: t => !(t.map Prod.fst).contains p.1 && nodupKeys t

mutual
/-- Well-formedness: every element's attribute keys are pairwise distinct. -/
def wfElem : Elem → Bool
  | .mk _ a _ cs => nodupKeys a && wfL cs
def wfL : ElemList → Bool
  | .nil => true
  | .cons e l => wfElem e && wfL l
end

/-- Per-node `rq` attribute indicator sum (proof aid for C6). -/
def rqOfNode (n : Elem) : Nat :=
  (refNameAttrs.map fun k => lcChars ((getA n k).getD "").data).countP (fun v => hasSub "rq".data v)

/-- Per-node `rs` attribute indicator sum (proof aid for C6). -/
def rsOfNode (n : Elem) : Nat :=
  (refNameAttrs.map fun k => lcChars ((getA n k).getD "").data).countP (fun v => hasSub "rs".data v)

/-- The name a global declaration carries after `applyRenames` (proof aid). -/
def outN (plan : List (Nat × String × String)) (p : Nat × Elem) : String :=
  match lookupIdx plan p.1 with
  | some nw => nw.2
  | none => gName p.2

/-- The name a global declaration carries after `renameDefs` (proof aid). -/
def rdName (plan : List (String × String)) (c : Elem) : String :=
  if globalDefKinds.contains c.tag then (lookupStr plan (gName c)).getD (gName c) else gName c

/-- The `name` attribute of the `j`-th direct child of the root. -/
def childNameAt (root : Elem) (j : Nat) : Option String :=
  match root.children.get? j with
  | some c => getA c "name"
  | none => none

/-! ### Concrete documents used by witnesses and counterexamples -/

/-- An empty global complexType declaration. -/
def cT (nm : String) : Elem := Elem.mk (q "complexType") [("name", nm)] "" ElemList.nil

/-- An empty global element declaration. -/
def elN (nm : String) : Elem := Elem.mk (q "element") [("name", nm)] "" ElemList.nil

/-- An element carrying only a `ref` attribute (not a global declaration). -/
def elRef (v : String) : Elem := Elem.mk (q "element") [("ref", v)] "" ElemList.nil

/-- An element carrying only a `type` attribute (not a global declaration). -/
def elType (v : String) : Elem := Elem.mk (q "element") [("type", v)] "" ElemList.nil

/-- A schema with a duplicate pair of complexTypes named `A`, the second
holding a reference `type="tns:A"`. -/
def docB : Elem :=
  Elem.mk (q "schema") [] ""
    (ofList [cT "A", Elem.mk (q "complexType") [("name", "A")] "" (ofList [elType "tns:A"])])

/-- The Resolver's output on `docB`: the second `A` became `A_x2`. -/
def oB : Elem :=
  Elem.mk (q "schema") [] ""
    (ofList [cT "A", Elem.mk (q "complexType") [("name", "A_x2")] "" (ofList [elType "tns:A"])])

/-- Original document for the C1 counterexample: a duplicate pair of global
*elements* named `Foo` and a resolving reference `ref="Foo"`. -/
def cOrig : Elem := Elem.mk (q "schema") [] "" (ofList [elN "Foo", elN "Foo", elRef "Foo"])

/-- Fixed document for the C1 counterexample (`Foo_x2` introduced). -/
def cFixed : Elem := Elem.mk (q "schema") [] "" (ofList [elN "Foo", elN "Foo_x2"])

/-- The Finalizer's output on `(cOrig, cFixed)`: the reference was rewritten
to `FooType` but no declaration was renamed (elements are never renamed). -/
def cOut : Elem := Elem.mk (q "schema") [] "" (ofList [elN "Foo", elN "Foo", elRef "FooType"])

/-- Original document for the C1 witness (Finalizer part): duplicate
complexTypes named `B` plus a resolving reference. -/
def fOrig : Elem := Elem.mk (q "schema") [] "" (ofList [cT "B", cT "B", elType "B"])

/-- Fixed document for the C1 witness (Finalizer part). -/
def fFixed : Elem := Elem.mk (q "schema") [] "" (ofList [cT "B", cT "B_x2"])

/-- The Finalizer's output on `(fOrig, fFixed)`. -/
def fOut : Elem := Elem.mk (q "schema") [] "" (ofList [cT "BType", cT "BType", elType "BType"])

/-- A document whose root is not a schema element. -/
def badE : Elem := Elem.mk "notschema" [] "" ElemList.nil

/-- A declaration with no request/response signal (affinity undetermined). -/
def nodeW : Elem := Elem.mk (q "complexType") [("name", "A")] "" ElemList.nil

/-- Invariant threaded through the plan-building fold: the initial name set
stays chosen, every planned new name is chosen, planned new names are pairwise
distinct, and no planned new name is an initial name. -/
def planInv (init : List String) (st : List String × List (Nat × String × String)) : Prop :=
  init ⊆ st.1 ∧ (∀ t ∈ st.2, t.2.2 ∈ st.1) ∧ (st.2.map fun t => t.2.2).Nodup ∧
    ∀ t ∈ st.2, t.2.2 ∉ init

/-! ### Basic lemmas: membership, splitting, decimal rendering -/

theorem contains_iff {l : List String} {x : String} : l.contains x = true ↔ x ∈ l :=
  List.elem_iff

theorem breakAtColon_eq : ∀ (l : List Char) (p : List Char × List Char),
    breakAtColon l = some p → l = p.1 ++ ':' :: p.2 := by
  intro l
  induction l with
  | nil => intro p h; simp [breakAtColon] at h
  | cons c rest ih =>
    intro p h
    by_cases hc : c = ':'
    · subst hc
      simp [breakAtColon] at h
      subst h
      simp
    · rw [breakAtColon, if_neg hc] at h
      cases hb : breakAtColon rest with
      | none => rw [hb] at h; simp at h
      | some pq =>
        rw [hb] at h
        simp only [Option.some.injEq] at h
        subst h
        simpa using ih pq hb

theorem splitQ_recomb (v : String) : (splitQ v).1 ++ (splitQ v).2 = v := by
  unfold splitQ
  cases hb : breakAtColon v.data with
  | none => simp
  | some p =>
    simp only
    apply String.ext
    rw [String.data_append]
    have hv := breakAtColon_eq v.data p hb
    simp [hv]

theorem digitsRevAux_eq : ∀ (fuel n : Nat), n ≤ fuel → digitsRevAux fuel n = Nat.digits 10 n := by
  intro fuel
  induction fuel with
  | zero =>
    intro n hn
    have : n = 0 := Nat.le_zero.mp hn
    subst this
    simp [digitsRevAux]
  | succ fuel ih =>
    intro n hn
    match n with
    | 0 => simp [digitsRevAux]
    | m + 1 =>
      rw [digitsRevAux, Nat.digits_def' (by norm_num : (1:Nat) < 10) (Nat.succ_pos m)]
      congr 1
      apply ih
      have h1 : (m + 1) / 10 < m + 1 := Nat.div_lt_self (Nat.succ_pos m) (by norm_num)
      omega

theorem digitsRev_eq (n : Nat) : digitsRev n = Nat.digits 10 n :=
  digitsRevAux_eq n n le_rfl

theorem digitChar10_inj_fin : ∀ d1 d2 : Fin 10, digitChar10 d1.val = digitChar10 d2.val → d1 = d2 := by
  decide

theorem digitChar10_injN {d1 d2 : Nat} (h1 : d1 < 10) (h2 : d2 < 10)
    (h : digitChar10 d1 = digitChar10 d2) : d1 = d2 := by
  have := digitChar10_inj_fin ⟨d1, h1⟩ ⟨d2, h2⟩ h
  exact congrArg Fin.val this

theorem map_digitChar10_inj : ∀ (l1 l2 : List Nat), (∀ d ∈ l1, d < 10) → (∀ d ∈ l2, d < 10) →
    l1.map digitChar10 = l2.map digitChar10 → l1 = l2 := by
  intro l1
  induction l1 with
  | nil => intro l2 _ _ h; cases l2 <;> simp_all
  | cons d t ih =>
    intro l2 h1 h2 h
    cases l2 with
    | nil => simp at h
    | cons d' t' =>
      simp only [List.map_cons, List.cons.injEq] at h
      have hd : d = d' := digitChar10_injN (h1 d (by simp)) (h2 d' (by simp)) h.1
      have ht : t = t' := ih t' (fun x hx => h1 x (by simp [hx])) (fun x hx => h2 x (by simp [hx])) h.2
      rw [hd, ht]

theorem natStr_inj : ∀ m n : Nat, natStr m = natStr n → m = n := by
  have digLt : ∀ k : Nat, ∀ d ∈ (Nat.digits 10 k).reverse, d < 10 := by
    intro k d hd
    exact Nat.digits_lt_base (by norm_num) (List.mem_reverse.mp hd)
  have key : ∀ k : Nat, k ≠ 0 → ((digitsRev k).reverse).map digitChar10 = ['0'] → False := by
    intro k hk hmap
    rw [digitsRev_eq] at hmap
    have h0 : digitChar10 0 = '0' := by decide
    rw [← h0] at hmap
    have := map_digitChar10_inj ((Nat.digits 10 k).reverse) [0] (digLt k)
      (by intro d hd; simp at hd; omega) hmap
    have hdig : Nat.digits 10 k = [0] := by
      have := congrArg List.reverse this
      simpa using this
    have := Nat.ofDigits_digits 10 k
    rw [hdig] at this
    simp [Nat.ofDigits] at this
    omega
  intro m n h
  unfold natStr at h
  by_cases hm : m = 0 <;> by_cases hn : n = 0
  · omega
  · rw [if_pos hm, if_neg hn] at h
    have : ((digitsRev n).reverse).map digitChar10 = ['0'] := by
      have := congrArg String.data h
      simpa using this.symm
    exact absurd (key n hn this) (by simp)
  · rw [if_neg hm, if_pos hn] at h
    have : ((digitsRev m).reverse).map digitChar10 = ['0'] := by
      have := congrArg String.data h
      simpa using this
    exact absurd (key m hm this) (by simp)
  · rw [if_neg hm, if_neg hn] at h
    have hdata : ((digitsRev m).reverse).map digitChar10 = ((digitsRev n).reverse).map digitChar10 := by
      have := congrArg String.data h
      simpa using this
    rw [digitsRev_eq, digitsRev_eq] at hdata
    have := map_digitChar10_inj _ _ (digLt m) (digLt n) hdata
    have hrev : Nat.digits 10 m = Nat.digits 10 n := by
      have := congrArg List.reverse this
      simpa using this
    have h1 := Nat.ofDigits_digits 10 m
    have h2 := Nat.ofDigits_digits 10 n
    rw [hrev] at h1
    rw [h2] at h1
    exact h1.symm

theorem fallbackSfx_inj {a b : Nat} (h : fallbackSfx a = fallbackSfx b) : a = b := by
  apply natStr_inj
  unfold fallbackSfx at h
  have := congrArg String.data h
  rw [String.data_append, String.data_append] at this
  exact String.ext (List.append_cancel_left this)

theorem cand_inj (name : String) {a b : Nat}
    (h : name ++ fallbackSfx a = name ++ fallbackSfx b) : a = b := by
  apply fallbackSfx_inj
  have := congrArg String.data h
  rw [String.data_append, String.data_append] at this
  exact String.ext (List.append_cancel_left this)

/-! ### Freshness of the Resolver's bump loop -/

theorem bumpFrom_not_mem (name : String) (chosen : List String) :
    ∀ (fuel : Nat) (cur : String) (bump : Nat),
      ((∃ k, 1 ≤ k ∧ k ≤ fuel ∧ (name ++ fallbackSfx (bump + k)) ∉ chosen) ∨ cur ∉ chosen) →
      bumpFrom name chosen cur bump fuel ∉ chosen := by
  intro fuel
  induction fuel with
  | zero =>
    intro cur bump h
    rcases h with ⟨k, h1, h2, _⟩ | h
    · omega
    · simpa [bumpFrom] using h
  | succ fuel ih =>
    intro cur bump h
    rw [bumpFrom]
    by_cases hc : cur ∈ chosen
    · rw [if_pos (contains_iff.mpr hc)]
      apply ih
      rcases h with ⟨k, h1, h2, h3⟩ | h
      · match k, h1 with
        | 1, _ => right; simpa using h3
        | k + 2, _ =>
          left
          refine ⟨k + 1, by omega, by omega, ?_⟩
          have : bump + (k + 2) = bump + 1 + (k + 1) := by omega
          rwa [this] at h3
      · exact absurd hc h
    · rw [if_neg (by simpa using fun hh => hc (contains_iff.mp hh))]
      exact hc

theorem exists_fresh (name : String) (chosen : List String) (bump : Nat) :
    ∃ k, 1 ≤ k ∧ k ≤ chosen.length + 1 ∧ (name ++ fallbackSfx (bump + k)) ∉ chosen := by
  by_contra hcon
  push_neg at hcon
  classical
  set f : Fin (chosen.length + 1) → String :=
    fun j => name ++ fallbackSfx (bump + (j.val + 1)) with hf
  have hinj : Function.Injective f := by
    intro a b hab
    have := cand_inj name hab
    exact Fin.ext (by omega)
  have hsub : Finset.univ.image f ⊆ chosen.toFinset := by
    intro x hx
    simp only [Finset.mem_image] at hx
    obtain ⟨j, _, hj⟩ := hx
    rw [List.mem_toFinset]
    rw [← hj, hf]
    exact hcon (j.val + 1) (by omega) (by omega)
  have hcard : chosen.length + 1 ≤ chosen.toFinset.card := by
    calc chosen.length + 1 = (Finset.univ : Finset (Fin (chosen.length + 1))).card := by simp
    _ = (Finset.univ.image f).card := (Finset.card_image_of_injective _ hinj).symm
    _ ≤ chosen.toFinset.card := Finset.card_le_card hsub
  have := List.toFinset_card_le chosen
  omega

theorem bumpFrom_least (name : String) (chosen : List String) :
    ∀ (fuel bump : Nat), (∃ k, k ≤ fuel ∧ (name ++ fallbackSfx (bump + k)) ∉ chosen) →
      ∃ N, bump ≤ N ∧ bumpFrom name chosen (name ++ fallbackSfx bump) bump fuel = name ++ fallbackSfx N ∧
        (name ++ fallbackSfx N) ∉ chosen ∧
        ∀ m, bump ≤ m → m < N → (name ++ fallbackSfx m) ∈ chosen := by
  intro fuel
  induction fuel with
  | zero =>
    intro bump h
    obtain ⟨k, hk, hfree⟩ := h
    have : k = 0 := by omega
    subst this
    simp only [Nat.add_zero] at hfree
    exact ⟨bump, le_rfl, by simp [bumpFrom], hfree, fun m h1 h2 => by omega⟩
  | succ fuel ih =>
    intro bump h
    by_cases hc : (name ++ fallbackSfx bump) ∈ chosen
    · rw [bumpFrom, if_pos (contains_iff.mpr hc)]
      have hex : ∃ k, k ≤ fuel ∧ (name ++ fallbackSfx (bump + 1 + k)) ∉ chosen := by
        obtain ⟨k, hk, hfree⟩ := h
        match k with
        | 0 => simp only [Nat.add_zero] at hfree; exact absurd hc hfree
        | k + 1 =>
          refine ⟨k, by omega, ?_⟩
          have : bump + (k + 1) = bump + 1 + k := by omega
          rwa [this] at hfree
      obtain ⟨N, hN1, hN2, hN3, hN4⟩ := ih (bump + 1) hex
      refine ⟨N, by omega, hN2, hN3, ?_⟩
      intro m h1 h2
      rcases Nat.eq_or_lt_of_le h1 with heq | hlt
      · rw [← heq]; exact hc
      · exact hN4 m hlt h2
    · rw [bumpFrom, if_neg (by simpa using fun hh => hc (contains_iff.mp hh))]
      exact ⟨bump, le_rfl, rfl, hc, fun m h1 h2 => by omega⟩

theorem pickName_not_mem (node : Elem) (name : String) (chosen : List String) (i : Nat) :
    pickName node name chosen i ∉ chosen := by
  unfold pickName
  apply bumpFrom_not_mem
  left
  obtain ⟨k, h1, h2, h3⟩ := exists_fresh name chosen i
  exact ⟨k, h1, h2, h3⟩

theorem pickName_least (node : Elem) (name : String) (chosen : List String) (i : Nat)
    (h : guessAffinity node = none) :
    ∃ N, i ≤ N ∧ pickName node name chosen i = name ++ fallbackSfx N ∧
      (name ++ fallbackSfx N) ∉ chosen ∧
      ∀ m, i ≤ m → m < N → (name ++ fallbackSfx m) ∈ chosen := by
  unfold pickName
  rw [h]
  apply bumpFrom_least
  obtain ⟨k, _, _, h3⟩ := exists_fresh name chosen i
  exact ⟨k, by omega, h3⟩

/-! ### C6: the affinity heuristic computes the claimed scores and decision -/

theorem attrBump_spec (n : Elem) (k : String) (acc : Nat × Nat) :
    attrBump n k acc =
      (acc.1 + (if hasSub "rq".data (lcChars ((getA n k).getD "").data) then 1 else 0),
       acc.2 + (if hasSub "rs".data (lcChars ((getA n k).getD "").data) then 1 else 0)) := by
  unfold attrBump
  by_cases h1 : hasSub "rq".data (lcChars ((getA n k).getD "").data) <;>
    by_cases h2 : hasSub "rs".data (lcChars ((getA n k).getD "").data) <;>
      simp [h1, h2]

theorem nodeBump_spec (acc : Nat × Nat) (n : Elem) :
    nodeBump acc n = (acc.1 + rqOfNode n, acc.2 + rsOfNode n) := by
  unfold nodeBump rqOfNode rsOfNode
  rw [attrBump_spec, attrBump_spec, attrBump_spec]
  simp only [refNameAttrs, List.map_cons, List.map_nil, List.countP_cons, List.countP_nil]
  rw [Prod.mk.injEq]
  constructor <;> omega

theorem foldl_nodeBump : ∀ (l : List Elem) (acc : Nat × Nat),
    l.foldl nodeBump acc = (acc.1 + (l.map rqOfNode).sum, acc.2 + (l.map rsOfNode).sum) := by
  intro l
  induction l with
  | nil => intro acc; simp
  | cons n t ih =>
    intro acc
    rw [List.foldl_cons, nodeBump_spec, ih]
    simp only [List.map_cons, List.sum_cons]
    rw [Prod.mk.injEq]
    constructor <;> omega

theorem countP_flatMap (p : List Char → Bool) (f : Elem → List (List Char)) :
    ∀ l : List Elem, (l.flatMap f).countP p = (l.map (fun x => (f x).countP p)).sum := by
  intro l
  induction l with
  | nil => simp
  | cons x t ih => simp [List.flatMap_cons, List.countP_append, ih]

theorem rqAttrCount_eq (e : Elem) : rqAttrCount e = ((allElems e).map rqOfNode).sum := by
  unfold rqAttrCount
  rw [countP_flatMap]
  rfl

theorem rsAttrCount_eq (e : Elem) : rsAttrCount e = ((allElems e).map rsOfNode).sum := by
  unfold rsAttrCount
  rw [countP_flatMap]
  rfl

/-- **C6.** `guess_affinity` computes `rq` as the case-insensitive counts of
`"request"`, `"rqecho"` and `">rq<"` in the subtree's serialized text plus one
for each `name`/`type`/`base` attribute value in the subtree containing `"rq"`,
computes `rs` symmetrically from `"response"`, `"echoflag"`, `">rs<"` and
`"rs"`, and classifies, in order: request-like if `rq ≥ rs + 2`, else
response-like if `rs ≥ rq + 2`, else request-like if `rq > rs ∧ rq ≥ 2`, else
response-like if `rs > rq ∧ rs ≥ 2`, else undetermined. -/
theorem C6_affinity_heuristic : ∀ e : Elem, guessAffinity e = affinitySpec e := by
  intro e
  unfold guessAffinity affinitySpec
  simp only [foldl_nodeBump, rqAttrCount_eq, rsAttrCount_eq]

/-! ### C3: the Resolver's reference-update phase is the identity -/

theorem lookupStr_id (changed : List String) (x : String) :
    (lookupStr (changed.map fun n => (n, n)) x).getD x = x := by
  unfold lookupStr
  cases hf : (changed.map fun n => (n, n)).find? (fun p => p.1 == x) with
  | none => simp
  | some p =>
    have h1 := List.find?_some hf
    have h2 := List.mem_of_find?_eq_some hf
    simp only [List.mem_map] at h2
    obtain ⟨n, _, hn⟩ := h2
    have hx : p.1 = x := by simpa using h1
    have hp : p.2 = p.1 := by rw [← hn]
    simp [hp, hx]

theorem updAttr_id (changed : List String) (st : Elem × Nat) (a : String) :
    updAttr changed (changed.map fun n => (n, n)) st a = st := by
  unfold updAttr
  cases hg : getA st.1 a with
  | none => rfl
  | some v =>
    simp only
    by_cases hv : v = ""
    · rw [if_pos hv]
    · rw [if_neg hv]
      by_cases hc : changed.contains (splitQ v).2
      · rw [if_pos hc]
        have : (lookupStr (changed.map fun n => (n, n)) (splitQ v).2).getD (splitQ v).2
            = (splitQ v).2 := lookupStr_id changed (splitQ v).2
        rw [this, splitQ_recomb]
        simp
      · rw [if_neg hc]

theorem updNode_id (changed : List String) (e : Elem) :
    updNode changed (changed.map fun n => (n, n)) e = (e, 0) := by
  unfold updNode refAttrs
  rw [List.foldl_cons, updAttr_id, List.foldl_cons, updAttr_id, List.foldl_cons, updAttr_id,
    List.foldl_nil]

theorem updAll_id (changed : List String) : ∀ e : Elem,
    updAll changed (changed.map fun n => (n, n)) e = (e, 0) := by
  intro e
  induction e using Elem.rec
    (motive_2 := fun l => updAllL changed (changed.map fun n => (n, n)) l = (l, 0)) with
  | mk t a tx cs ih =>
    rw [updAll, updNode_id, ih]
    simp [Elem.tag, Elem.attrs, Elem.text]
  | nil => rw [updAllL]
  | cons c l ihc ihl =>
    rw [updAllL, ihc, ihl]
    simp

/-- **C3.** The Resolver's reference-update phase never changes a
`{type, base, ref}` attribute and always reports an updated-reference count of
0: whenever the Resolver produces a fixed document, that document is exactly
the document after the `@name` renames alone, and the reported count is 0
(the replacement value `prefix + canonical` is always the original value,
since each duplicate group's canonical name is its own old name). -/
theorem C3_ref_phase_noop : ∀ (root o : Elem) (u : Nat),
    fixCollisions root = FixResult.fixed o u →
    u = 0 ∧ o = applyRenames root (renamePlanOf root) := by
  intro root o u h
  unfold fixCollisions at h
  simp only [] at h
  split at h
  · exact absurd h (by simp)
  · split at h
    · exact absurd h (by simp)
    · rw [updAll_id] at h
      simp only [FixResult.fixed.injEq] at h
      exact ⟨h.2.symm, h.1.symm⟩

/-! ### C4: the Finalizer's inferred plan -/

theorem pySplitAux_headD (p0 : Char) (ps : List Char) :
    ∀ (fuel : Nat) (acc l : List Char), l.length ≤ fuel →
      (pySplitAux p0 ps fuel acc l).headD [] = acc.reverse ++ takeBefore (p0 :: ps) l := by
  intro fuel
  induction fuel with
  | zero =>
    intro acc l hl
    have : l = [] := List.length_eq_zero.mp (Nat.le_zero.mp hl)
    subst this
    simp [pySplitAux, takeBefore]
  | succ fuel ih =>
    intro acc l hl
    cases l with
    | nil => simp [pySplitAux, takeBefore]
    | cons c rest =>
      rw [pySplitAux, takeBefore]
      by_cases hpre : isPrefOf (p0 :: ps) (c :: rest)
      · rw [if_pos hpre, if_pos hpre]
        simp
      · rw [if_neg hpre, if_neg hpre]
        rw [ih (c :: acc) rest (by simp only [List.length_cons] at hl; omega)]
        simp

theorem pySplitHead_eq (pat : String) (s : List Char) (hpat : pat.data ≠ []) :
    pySplitHead pat s = takeBefore pat.data s := by
  unfold pySplitHead
  cases hp : pat.data with
  | nil => exact absurd hp hpat
  | cons p0 ps =>
    show (pySplitAux p0 ps s.length [] s).headD [] = takeBefore (p0 :: ps) s
    rw [pySplitAux_headD p0 ps s.length [] s le_rfl]
    simp

theorem baseNameOf_eq_specBase (r : String) : baseNameOf r = specBase r := by
  unfold baseNameOf specBase
  rw [pySplitHead_eq "_x" r.data (by decide), pySplitHead_eq "_R" r.data (by decide)]

theorem dedupAux_mem : ∀ (l seen : List String) (x : String),
    x ∈ dedupAux seen l ↔ (x ∈ l ∧ x ∉ seen) := by
  intro l
  induction l with
  | nil => intro seen x; simp [dedupAux]
  | cons y t ih =>
    intro seen x
    unfold dedupAux
    by_cases hy : seen.contains y
    · rw [if_pos hy, ih]
      constructor
      · rintro ⟨h1, h2⟩
        exact ⟨List.mem_cons_of_mem _ h1, h2⟩
      · rintro ⟨h1, h2⟩
        rcases List.mem_cons.mp h1 with rfl | h1
        · exact absurd (contains_iff.mp hy) h2
        · exact ⟨h1, h2⟩
    · rw [if_neg hy]
      by_cases hxy : x = y
      · subst hxy
        constructor
        · intro _
          exact ⟨List.mem_cons_self _ _, fun hc => hy (contains_iff.mpr hc)⟩
        · intro _
          exact List.mem_cons_self _ _
      · constructor
        · intro h
          rcases List.mem_cons.mp h with rfl | h
          · exact absurd rfl hxy
          · rw [ih] at h
            refine ⟨List.mem_cons_of_mem _ h.1, fun hc => h.2 (List.mem_cons_of_mem _ hc)⟩
        · rintro ⟨h1, h2⟩
          rcases List.mem_cons.mp h1 with rfl | h1
          · exact absurd rfl hxy
          · refine List.mem_cons_of_mem _ ?_
            rw [ih]
            exact ⟨h1, fun hc => by
              rcases List.mem_cons.mp hc with rfl | hc
              · exact hxy rfl
              · exact h2 hc⟩

/-- **C4.** The Finalizer's rename plan: `(n, m)` is a plan entry exactly when
`m = n ++ "Type"` and `n` is the portion before the first `"_x"` (else, the
first `"_R"`) of some name that is global in the fixed document but not in the
original (introduced names containing neither `"_x"` nor `"_R"` contribute
nothing, via `specBase`). -/
theorem C4_finalizer_plan : ∀ (orig fxd : Elem) (n m : String),
    (n, m) ∈ renamePlanFin orig fxd ↔
      (m = n ++ "Type" ∧
        ∃ r, r ∈ globalNamesList fxd ∧ r ∉ globalNamesList orig ∧ specBase r = some n) := by
  intro orig fxd n m
  unfold renamePlanFin ambiguousNames introducedNames
  rw [List.mem_map]
  constructor
  · rintro ⟨a, ha, heq⟩
    simp only [Prod.mk.injEq] at heq
    obtain ⟨rfl, rfl⟩ := heq
    rw [dedupAux_mem] at ha
    obtain ⟨ha, -⟩ := ha
    rw [List.mem_filterMap] at ha
    obtain ⟨r, hr, hbase⟩ := ha
    rw [List.mem_filter] at hr
    refine ⟨rfl, r, hr.1, ?_, ?_⟩
    · have := hr.2
      simpa [contains_iff] using this
    · rw [← baseNameOf_eq_specBase]
      exact hbase
  · rintro ⟨rfl, r, hr1, hr2, hbase⟩
    refine ⟨n, ?_, rfl⟩
    rw [dedupAux_mem]
    refine ⟨?_, by simp⟩
    rw [List.mem_filterMap]
    refine ⟨r, ?_, by rw [baseNameOf_eq_specBase]; exact hbase⟩
    rw [List.mem_filter]
    exact ⟨hr1, by simpa [contains_iff] using hr2⟩

/-! ### Attribute update lemmas -/

theorem tag_setA (e : Elem) (k v : String) : (setA e k v).tag = e.tag := rfl

theorem kids_setA (e : Elem) (k v : String) : (setA e k v).kids = e.kids := rfl

theorem find?_setPair_same : ∀ (a : List (String × String)) (k v : String),
    (setPair a k v).find? (fun p => p.1 == k) = some (k, v) := by
  intro a
  induction a with
  | nil => intro k v; simp [setPair, List.find?]
  | cons p t ih =>
    intro k v
    obtain ⟨k', v'⟩ := p
    rw [setPair]
    by_cases hk : k' = k
    · rw [if_pos hk]
      simp [List.find?]
    · rw [if_neg hk]
      rw [List.find?]
      have : ((k', v').1 == k) = false := by simpa using hk
      rw [this]
      exact ih k v

theorem getA_setA_same (e : Elem) (k v : String) : getA (setA e k v) k = some v := by
  unfold getA
  rw [setA]
  show (match (setPair e.attrs k v).find? (fun p => p.1 == k) with
    | some p => some p.2 | none => none) = some v
  rw [find?_setPair_same]

theorem find?_setPair_ne : ∀ (a : List (String × String)) (k v k' : String), k' ≠ k →
    (setPair a k v).find? (fun p => p.1 == k') = a.find? (fun p => p.1 == k') := by
  intro a
  induction a with
  | nil =>
    intro k v k' h
    simp only [setPair, List.find?]
    have : ((k, v).1 == k') = false := by simpa using fun hh => h hh.symm
    simp [this]
  | cons p t ih =>
    intro k v k' h
    obtain ⟨k0, v0⟩ := p
    rw [setPair]
    by_cases hk : k0 = k
    · rw [if_pos hk]
      rw [List.find?, List.find?]
      have h1 : ((k, v).1 == k') = false := by simpa using fun hh => h hh.symm
      have h2 : ((k0, v0).1 == k') = false := by simpa using fun hh => h (hk ▸ hh).symm
      rw [h1, h2]
    · rw [if_neg hk]
      rw [List.find?, List.find?]
      cases hb : ((k0, v0).1 == k') with
      | true => rfl
      | false => simpa using ih k v k' h

theorem getA_setA_ne (e : Elem) (k v k' : String) (h : k' ≠ k) :
    getA (setA e k v) k' = getA e k' := by
  unfold getA
  rw [setA]
  show (match (setPair e.attrs k v).find? (fun p => p.1 == k') with
    | some p => some p.2 | none => none) =
    (match e.attrs.find? (fun p => p.1 == k') with | some p => some p.2 | none => none)
  rw [find?_setPair_ne e.attrs k v k' h]

theorem isGlobalDecl_setA_name (e : Elem) (v : String) (h : isGlobalDecl e = true) :
    isGlobalDecl (setA e "name" v) = true := by
  unfold isGlobalDecl at h ⊢
  rw [tag_setA, getA_setA_same]
  simp only [Bool.and_eq_true] at h ⊢
  exact ⟨h.1, rfl⟩

/-! ### Structure of the global-declaration list -/

theorem globalsFrom_ge : ∀ (cs : List Elem) (j : Nat) (p : Nat × Elem),
    p ∈ globalsFrom j cs → j ≤ p.1 := by
  intro cs
  induction cs with
  | nil => intro j p h; simp [globalsFrom] at h
  | cons c rest ih =>
    intro j p h
    rw [globalsFrom] at h
    by_cases hg : isGlobalDecl c
    · rw [if_pos hg] at h
      rcases List.mem_cons.mp h with rfl | h
      · exact le_rfl
      · exact Nat.le_of_succ_le (ih (j + 1) p h)
    · rw [if_neg hg] at h
      exact Nat.le_of_succ_le (ih (j + 1) p h)

theorem globalsFrom_pairwise_lt : ∀ (cs : List Elem) (j : Nat),
    (globalsFrom j cs).Pairwise (fun p q => p.1 < q.1) := by
  intro cs
  induction cs with
  | nil => intro j; simp [globalsFrom]
  | cons c rest ih =>
    intro j
    rw [globalsFrom]
    by_cases hg : isGlobalDecl c
    · rw [if_pos hg]
      refine List.pairwise_cons.mpr ⟨?_, ih (j + 1)⟩
      intro p hp
      exact Nat.lt_of_succ_le (globalsFrom_ge rest (j + 1) p hp)
    · rw [if_neg hg]
      exact ih (j + 1)

theorem globalsOf_idx_nodup (root : Elem) : ((globalsOf root).map Prod.fst).Nodup := by
  have h2 : ((globalsOf root).map Prod.fst).Pairwise (· < ·) := by
    rw [List.pairwise_map]
    exact globalsFrom_pairwise_lt root.children 0
  exact h2.imp Nat.ne_of_lt

theorem globalsFrom_global : ∀ (cs : List Elem) (j : Nat) (p : Nat × Elem),
    p ∈ globalsFrom j cs → isGlobalDecl p.2 = true := by
  intro cs
  induction cs with
  | nil => intro j p h; simp [globalsFrom] at h
  | cons c rest ih =>
    intro j p h
    rw [globalsFrom] at h
    by_cases hg : isGlobalDecl c
    · rw [if_pos hg] at h
      rcases List.mem_cons.mp h with rfl | h
      · exact hg
      · exact ih (j + 1) p h
    · rw [if_neg hg] at h
      exact ih (j + 1) p h

theorem globalsOf_nodup (root : Elem) : (globalsOf root).Nodup :=
  (globalsOf_idx_nodup root).of_map

theorem globals_eq_of_idx {root : Elem} {p p' : Nat × Elem}
    (hp : p ∈ globalsOf root) (hp' : p' ∈ globalsOf root) (h : p.1 = p'.1) : p = p' :=
  List.inj_on_of_nodup_map (globalsOf_idx_nodup root) hp hp' h

/-! ### Structure of `by_name` -/

theorem dedupAux_nodup : ∀ (l seen : List String), (dedupAux seen l).Nodup := by
  intro l
  induction l with
  | nil => intro seen; simp [dedupAux]
  | cons y t ih =>
    intro seen
    unfold dedupAux
    by_cases hy : seen.contains y
    · rw [if_pos hy]; exact ih seen
    · rw [if_neg hy]
      refine List.nodup_cons.mpr ⟨?_, ih (y :: seen)⟩
      intro hmem
      exact ((dedupAux_mem t (y :: seen) y).mp hmem).2 (List.mem_cons_self _ _)

theorem keysInOrder_nodup (root : Elem) : (keysInOrder root).Nodup :=
  dedupAux_nodup _ []

theorem mem_keysInOrder {root : Elem} {n : String} :
    n ∈ keysInOrder root ↔ ∃ p, p ∈ globalsOf root ∧ gName p.2 = n := by
  unfold keysInOrder
  rw [dedupAux_mem]
  simp [List.mem_map]

theorem mem_membersOf {root : Elem} {n : String} {p : Nat × Elem} :
    p ∈ membersOf root n ↔ p ∈ globalsOf root ∧ gName p.2 = n := by
  unfold membersOf
  rw [List.mem_filter]
  simp

theorem membersOf_sub {root : Elem} {n : String} : membersOf root n ⊆ globalsOf root :=
  fun _ hp => (mem_membersOf.mp hp).1

theorem membersOf_nodup (root : Elem) (n : String) : (membersOf root n).Nodup :=
  (globalsOf_nodup root).filter _

theorem mem_byName {root : Elem} {g : String × List (Nat × Elem)} :
    g ∈ byName root ↔ g.1 ∈ keysInOrder root ∧ g.2 = membersOf root g.1 := by
  unfold byName
  rw [List.mem_map]
  constructor
  · rintro ⟨n, hn, rfl⟩
    exact ⟨hn, rfl⟩
  · rintro ⟨h1, h2⟩
    exact ⟨g.1, h1, by rw [← h2]⟩

theorem byName_of_global {root : Elem} {p : Nat × Elem} (hp : p ∈ globalsOf root) :
    (gName p.2, membersOf root (gName p.2)) ∈ byName root :=
  mem_byName.mpr ⟨mem_keysInOrder.mpr ⟨p, hp, rfl⟩, rfl⟩

/-! ### The rename plan: shape and freshness invariants -/

theorem planTail_proj : ∀ (ms : List (Nat × Elem)) (name : String) (i : Nat)
    (st : List String × List (Nat × String × String)),
    ((planTail name i ms st).2).map (fun t => (t.1, t.2.1)) =
      st.2.map (fun t => (t.1, t.2.1)) ++ ms.map (fun m => (m.1, name)) := by
  intro ms
  induction ms with
  | nil => intro name i st; simp [planTail]
  | cons m rest ih =>
    intro name i st
    rw [planTail, ih]
    simp [List.map_append]

theorem foldl_planGroup_proj : ∀ (gs : List (String × List (Nat × Elem)))
    (st : List String × List (Nat × String × String)),
    ((gs.foldl planGroup st).2).map (fun t => (t.1, t.2.1)) =
      st.2.map (fun t => (t.1, t.2.1)) ++
        gs.flatMap (fun g => g.2.tail.map (fun m => (m.1, g.1))) := by
  intro gs
  induction gs with
  | nil => intro st; simp
  | cons g rest ih =>
    intro st
    rw [List.foldl_cons, ih]
    unfold planGroup
    rw [planTail_proj]
    simp [List.flatMap_cons]

theorem renamePlanOf_proj (root : Elem) :
    (renamePlanOf root).map (fun t => (t.1, t.2.1)) =
      (byName root).flatMap (fun g => g.2.tail.map (fun m => (m.1, g.1))) := by
  unfold renamePlanOf buildState
  rw [foldl_planGroup_proj]
  simp

theorem planTail_inv (init : List String) : ∀ (ms : List (Nat × Elem)) (name : String) (i : Nat)
    (st : List String × List (Nat × String × String)),
    planInv init st → planInv init (planTail name i ms st) := by
  intro ms
  induction ms with
  | nil => intro name i st h; simpa [planTail] using h
  | cons m rest ih =>
    intro name i st h
    rw [planTail]
    apply ih
    obtain ⟨h1, h2, h3, h4⟩ := h
    have hfresh : pickName m.2 name st.1 i ∉ st.1 := pickName_not_mem m.2 name st.1 i
    refine ⟨fun x hx => List.mem_cons_of_mem _ (h1 hx), ?_, ?_, ?_⟩
    · intro t ht
      rcases List.mem_append.mp ht with ht | ht
      · exact List.mem_cons_of_mem _ (h2 t ht)
      · rcases List.mem_singleton.mp ht with rfl
        exact List.mem_cons_self _ _
    · rw [List.map_append]
      simp only [List.map_cons, List.map_nil]
      rw [List.nodup_append]
      refine ⟨h3, List.nodup_singleton _, ?_⟩
      intro x hx
      simp only [List.mem_singleton]
      intro hx1
      rw [List.mem_map] at hx
      obtain ⟨t, ht, hteq⟩ := hx
      exact hfresh (hx1 ▸ hteq ▸ h2 t ht)
    · intro t ht
      rcases List.mem_append.mp ht with ht | ht
      · exact h4 t ht
      · rcases List.mem_singleton.mp ht with rfl
        exact fun hc => hfresh (h1 hc)

theorem foldl_planGroup_inv (init : List String) : ∀ (gs : List (String × List (Nat × Elem)))
    (st : List String × List (Nat × String × String)),
    planInv init st → planInv init (gs.foldl planGroup st) := by
  intro gs
  induction gs with
  | nil => intro st h; exact h
  | cons g rest ih =>
    intro st h
    rw [List.foldl_cons]
    exact ih _ (planTail_inv init g.2.tail g.1 2 st h)

theorem buildState_inv (root : Elem) : planInv (keysInOrder root) (buildState root) := by
  unfold buildState
  apply foldl_planGroup_inv
  exact ⟨fun x hx => hx, by simp, by simp, by simp⟩

theorem plan_news_nodup (root : Elem) :
    ((renamePlanOf root).map fun t => t.2.2).Nodup :=
  (buildState_inv root).2.2.1

theorem plan_news_not_key (root : Elem) :
    ∀ t ∈ renamePlanOf root, t.2.2 ∉ keysInOrder root :=
  (buildState_inv root).2.2.2

/-! ### Plan lookups -/

theorem lookupIdx_none_iff {plan : List (Nat × String × String)} {k : Nat} :
    lookupIdx plan k = none ↔ ∀ t ∈ plan, t.1 ≠ k := by
  unfold lookupIdx
  cases hf : plan.find? (fun t => t.1 == k) with
  | none =>
    simp only [true_iff]
    rw [List.find?_eq_none] at hf
    intro t ht
    simpa using hf t ht
  | some t =>
    constructor
    · intro h; exact absurd h (by simp)
    · intro h
      exact absurd (by simpa using List.find?_some hf) (h t (List.mem_of_find?_eq_some hf))

theorem lookupIdx_some_mem {plan : List (Nat × String × String)} {k : Nat}
    {nw : String × String} (h : lookupIdx plan k = some nw) :
    ∃ t ∈ plan, t.1 = k ∧ t.2 = nw := by
  unfold lookupIdx at h
  cases hf : plan.find? (fun t => t.1 == k) with
  | none => rw [hf] at h; exact absurd h (by simp)
  | some t =>
    rw [hf] at h
    simp only [Option.some.injEq] at h
    exact ⟨t, List.mem_of_find?_eq_some hf, by simpa using List.find?_some hf, h⟩

theorem plan_entry_shape {root : Elem} {t : Nat × String × String}
    (ht : t ∈ renamePlanOf root) :
    ∃ g ∈ byName root, ∃ m ∈ g.2.tail, t.1 = m.1 ∧ t.2.1 = g.1 := by
  have hmem : (t.1, t.2.1) ∈ (renamePlanOf root).map (fun t => (t.1, t.2.1)) :=
    List.mem_map_of_mem _ ht
  rw [renamePlanOf_proj] at hmem
  rw [List.mem_flatMap] at hmem
  obtain ⟨g, hg, hmem⟩ := hmem
  rw [List.mem_map] at hmem
  obtain ⟨m, hm, heq⟩ := hmem
  simp only [Prod.mk.injEq] at heq
  exact ⟨g, hg, m, hm, heq.1.symm, heq.2.symm⟩

theorem plan_entry_exists {root : Elem} {g : String × List (Nat × Elem)} {m : Nat × Elem}
    (hg : g ∈ byName root) (hm : m ∈ g.2.tail) :
    ∃ t ∈ renamePlanOf root, t.1 = m.1 ∧ t.2.1 = g.1 := by
  have hmem : (m.1, g.1) ∈ (byName root).flatMap (fun g => g.2.tail.map (fun m => (m.1, g.1))) := by
    rw [List.mem_flatMap]
    exact ⟨g, hg, List.mem_map_of_mem _ hm⟩
  rw [← renamePlanOf_proj] at hmem
  rw [List.mem_map] at hmem
  obtain ⟨t, ht, heq⟩ := hmem
  simp only [Prod.mk.injEq] at heq
  exact ⟨t, ht, heq.1, heq.2⟩

theorem head_not_planned {root : Elem} {name : String} {ms : List (Nat × Elem)}
    {j : Nat} {e : Elem} (hg : (name, ms) ∈ byName root) (hh : ms.head? = some (j, e)) :
    lookupIdx (renamePlanOf root) j = none := by
  rw [lookupIdx_none_iff]
  intro t ht hteq
  obtain ⟨g', hg', m, hm, h1, h2⟩ := plan_entry_shape ht
  have hms : ms = membersOf root name := (mem_byName.mp hg).2
  cases hms' : ms with
  | nil => rw [hms'] at hh; exact absurd hh (by simp)
  | cons a tl =>
    rw [hms'] at hh
    simp only [List.head?_cons, Option.some.injEq] at hh
    subst hh
    have hag : (j, e) ∈ globalsOf root := by
      have : (j, e) ∈ ms := by rw [hms']; exact List.mem_cons_self _ _
      rw [hms] at this
      exact (mem_membersOf.mp this).1
    have haname : gName e = name := by
      have : (j, e) ∈ ms := by rw [hms']; exact List.mem_cons_self _ _
      rw [hms] at this
      exact (mem_membersOf.mp this).2
    have hg'2 : g'.2 = membersOf root g'.1 := (mem_byName.mp hg').2
    have hmg : m ∈ membersOf root g'.1 := by
      rw [← hg'2]
      exact List.mem_of_mem_tail hm
    have hmglob : m ∈ globalsOf root := (mem_membersOf.mp hmg).1
    have hmj : m.1 = j := by rw [← h1, hteq]
    have hme : m = (j, e) := globals_eq_of_idx hmglob hag hmj
    have hgname : g'.1 = name := by
      rw [← (mem_membersOf.mp hmg).2, hme, haname]
    have hmtail : (j, e) ∈ ms.tail := by
      rw [← hme, hms, ← hgname, ← hg'2]
      exact hm
    rw [hms'] at hmtail
    simp only [List.tail_cons] at hmtail
    have hnodup : ms.Nodup := by rw [hms]; exact membersOf_nodup root name
    rw [hms'] at hnodup
    exact (List.nodup_cons.mp hnodup).1 hmtail

/-! ### Shape of the document after the Resolver's renames -/

theorem toList_ofList : ∀ l : List Elem, (ofList l).toList = l := by
  intro l
  induction l with
  | nil => rfl
  | cons e t ih => simp [ofList, ElemList.toList, ih]

theorem children_mk_ofList (t : String) (a : List (String × String)) (tx : String)
    (l : List Elem) : (Elem.mk t a tx (ofList l)).children = l := by
  unfold Elem.children Elem.kids
  exact toList_ofList l

theorem gName_setA_name (e : Elem) (v : String) : gName (setA e "name" v) = v := by
  unfold gName
  rw [getA_setA_same]
  rfl

theorem plan_idx_global (root : Elem) : ∀ k, (lookupIdx (renamePlanOf root) k).isSome = true →
    k ∈ (globalsOf root).map Prod.fst := by
  intro k hk
  cases hl : lookupIdx (renamePlanOf root) k with
  | none => rw [hl] at hk; simp at hk
  | some nw =>
    obtain ⟨t, ht, h1, _⟩ := lookupIdx_some_mem hl
    obtain ⟨g, hg, m, hm, ht1, _⟩ := plan_entry_shape ht
    have hg2 : g.2 = membersOf root g.1 := (mem_byName.mp hg).2
    have hmglob : m ∈ globalsOf root := by
      have : m ∈ membersOf root g.1 := by rw [← hg2]; exact List.mem_of_mem_tail hm
      exact (mem_membersOf.mp this).1
    rw [List.mem_map]
    exact ⟨m, hmglob, by rw [← ht1, h1]⟩

theorem globalsFrom_renameChildren (plan : List (Nat × String × String)) :
    ∀ (cs : List Elem) (j : Nat),
    (∀ k, (lookupIdx plan k).isSome = true → j ≤ k → k ∈ (globalsFrom j cs).map Prod.fst) →
    globalsFrom j (renameChildren plan j cs) =
      (globalsFrom j cs).map (fun p => (p.1,
        match lookupIdx plan p.1 with
        | some nw => setA p.2 "name" nw.2
        | none => p.2)) := by
  intro cs
  induction cs with
  | nil => intro j _; simp [renameChildren, globalsFrom]
  | cons c rest ih =>
    intro j h
    rw [renameChildren]
    cases hl : lookupIdx plan j with
    | none =>
      by_cases hg : isGlobalDecl c
      · show globalsFrom j (c :: renameChildren plan (j + 1) rest) = _
        rw [globalsFrom, if_pos hg, globalsFrom, if_pos hg, List.map_cons]
        congr 1
        · simp [hl]
        · apply ih
          intro k hk hjk
          have hmem := h k hk (by omega)
          rw [globalsFrom, if_pos hg] at hmem
          simp only [List.map_cons] at hmem
          rcases List.mem_cons.mp hmem with heq | hmem
          · omega
          · exact hmem
      · show globalsFrom j (c :: renameChildren plan (j + 1) rest) = _
        rw [globalsFrom, if_neg hg, globalsFrom, if_neg hg]
        apply ih
        intro k hk hjk
        have hmem := h k hk (by omega)
        rw [globalsFrom, if_neg hg] at hmem
        exact hmem
    | some nw =>
      have hcg : isGlobalDecl c = true := by
        have hj := h j (by simp [hl]) le_rfl
        by_cases hg : isGlobalDecl c
        · exact hg
        · exfalso
          rw [globalsFrom, if_neg hg] at hj
          rw [List.mem_map] at hj
          obtain ⟨p, hp, hpeq⟩ := hj
          have := globalsFrom_ge rest (j + 1) p hp
          omega
      show globalsFrom j (setA c "name" nw.2 :: renameChildren plan (j + 1) rest) = _
      rw [globalsFrom, if_pos (isGlobalDecl_setA_name c nw.2 hcg), globalsFrom, if_pos hcg,
        List.map_cons]
      congr 1
      · simp [hl]
      · apply ih
        intro k hk hjk
        have hmem := h k hk (by omega)
        rw [globalsFrom, if_pos hcg] at hmem
        simp only [List.map_cons] at hmem
        rcases List.mem_cons.mp hmem with heq | hmem
        · omega
        · exact hmem

theorem globalNamesList_applyRenames (root : Elem) :
    globalNamesList (applyRenames root (renamePlanOf root)) =
      (globalsOf root).map (outN (renamePlanOf root)) := by
  unfold globalNamesList
  show (globalsOf (applyRenames root (renamePlanOf root))).map (fun p => gName p.2) = _
  unfold globalsOf applyRenames
  rw [children_mk_ofList]
  rw [globalsFrom_renameChildren (renamePlanOf root) root.children 0
    (fun k hk _ => plan_idx_global root k hk)]
  rw [List.map_map]
  apply List.map_congr_left
  intro p _
  show gName (match lookupIdx (renamePlanOf root) p.1 with
    | some nw => setA p.2 "name" nw.2
    | none => p.2) = outN (renamePlanOf root) p
  unfold outN
  cases hl : lookupIdx (renamePlanOf root) p.1 with
  | none => rfl
  | some nw => exact gName_setA_name p.2 nw.2

/-! ### Uniqueness of the output names -/

theorem unrenamed_same_name_eq {root : Elem} {p p' : Nat × Elem}
    (hp : p ∈ globalsOf root) (hp' : p' ∈ globalsOf root)
    (hl : lookupIdx (renamePlanOf root) p.1 = none)
    (hl' : lookupIdx (renamePlanOf root) p'.1 = none)
    (hn : gName p.2 = gName p'.2) : p = p' := by
  by_contra hne
  have hpm : p ∈ membersOf root (gName p.2) := mem_membersOf.mpr ⟨hp, rfl⟩
  have hpm' : p' ∈ membersOf root (gName p.2) := mem_membersOf.mpr ⟨hp', hn.symm⟩
  have hgb : (gName p.2, membersOf root (gName p.2)) ∈ byName root := byName_of_global hp
  cases hms : membersOf root (gName p.2) with
  | nil => rw [hms] at hpm; exact absurd hpm (by simp)
  | cons a tl =>
    have htl : p ∈ tl ∨ p' ∈ tl := by
      rw [hms] at hpm hpm'
      rcases List.mem_cons.mp hpm with rfl | h1
      · rcases List.mem_cons.mp hpm' with rfl | h2
        · exact absurd rfl hne
        · exact Or.inr h2
      · exact Or.inl h1
    rcases htl with hmem | hmem
    · obtain ⟨t, ht, ht1, -⟩ := plan_entry_exists hgb
        (show p ∈ (gName p.2, membersOf root (gName p.2)).2.tail by
          simp only
          rw [hms]
          simpa using hmem)
      rw [lookupIdx_none_iff] at hl
      exact hl t ht ht1
    · obtain ⟨t, ht, ht1, -⟩ := plan_entry_exists hgb
        (show p' ∈ (gName p.2, membersOf root (gName p.2)).2.tail by
          simp only
          rw [hms]
          simpa using hmem)
      rw [lookupIdx_none_iff] at hl'
      exact hl' t ht ht1

theorem outN_inj (root : Elem) : ∀ p ∈ globalsOf root, ∀ q ∈ globalsOf root, p.1 ≠ q.1 →
    outN (renamePlanOf root) p ≠ outN (renamePlanOf root) q := by
  intro p hp p' hp' hne
  unfold outN
  cases hl : lookupIdx (renamePlanOf root) p.1 with
  | some nw =>
    cases hl' : lookupIdx (renamePlanOf root) p'.1 with
    | some nw' =>
      show nw.2 ≠ nw'.2
      obtain ⟨t, ht, ht1, ht2⟩ := lookupIdx_some_mem hl
      obtain ⟨t', ht', ht1', ht2'⟩ := lookupIdx_some_mem hl'
      intro hcon
      have htt : t ≠ t' := fun h => hne (by rw [← ht1, ← ht1', h])
      have : t = t' := List.inj_on_of_nodup_map (plan_news_nodup root) ht ht'
        (by rw [ht2, ht2']; exact hcon)
      exact htt this
    | none =>
      show nw.2 ≠ gName p'.2
      obtain ⟨t, ht, ht1, ht2⟩ := lookupIdx_some_mem hl
      intro hcon
      have h1 : nw.2 ∉ keysInOrder root := by
        have := plan_news_not_key root t ht
        rwa [ht2] at this
      rw [hcon] at h1
      exact h1 (mem_keysInOrder.mpr ⟨p', hp', rfl⟩)
  | none =>
    cases hl' : lookupIdx (renamePlanOf root) p'.1 with
    | some nw' =>
      show gName p.2 ≠ nw'.2
      obtain ⟨t, ht, ht1, ht2⟩ := lookupIdx_some_mem hl'
      intro hcon
      have h1 : nw'.2 ∉ keysInOrder root := by
        have := plan_news_not_key root t ht
        rwa [ht2] at this
      rw [← hcon] at h1
      exact h1 (mem_keysInOrder.mpr ⟨p, hp, rfl⟩)
    | none =>
      show gName p.2 ≠ gName p'.2
      intro hcon
      exact hne (congrArg Prod.fst (unrenamed_same_name_eq hp hp' hl hl' hcon))

theorem nodup_names_applyRenames (root : Elem) :
    (globalNamesList (applyRenames root (renamePlanOf root))).Nodup := by
  rw [globalNamesList_applyRenames]
  have hpw : (globalsOf root).Pairwise (fun p q => p.1 ≠ q.1) := by
    have h := globalsOf_idx_nodup root
    rw [List.Nodup, List.pairwise_map] at h
    exact h
  have h2 : (globalsOf root).Pairwise
      (fun p q => outN (renamePlanOf root) p ≠ outN (renamePlanOf root) q) := by
    refine List.Pairwise.imp_of_mem ?_ hpw
    intro p q hp hq hne
    exact outN_inj root p hp q hq hne
  exact List.pairwise_map.mpr h2

/-! ### No duplicates ↔ empty plan -/

theorem count_names_eq (root : Elem) (a : String) :
    (globalNamesList root).count a = (membersOf root a).length := by
  show ((globalsOf root).map fun p => gName p.2).countP (· == a) = _
  rw [List.countP_map, List.countP_eq_length_filter]
  rfl

theorem membersOf_short_of_plan_empty {root : Elem} (h : renamePlanOf root = [])
    (a : String) : (membersOf root a).length ≤ 1 := by
  cases hms : membersOf root a with
  | nil => simp
  | cons m tl =>
    cases htl : tl with
    | nil => simp
    | cons x tl2 =>
      exfalso
      have hmem : m ∈ membersOf root a := by rw [hms]; exact List.mem_cons_self _ _
      have hglob : m ∈ globalsOf root := (mem_membersOf.mp hmem).1
      have hname : gName m.2 = a := (mem_membersOf.mp hmem).2
      have hgb : (a, membersOf root a) ∈ byName root := by
        rw [← hname]
        exact byName_of_global hglob
      obtain ⟨t, ht, -, -⟩ := plan_entry_exists hgb
        (show x ∈ (a, membersOf root a).2.tail by
          simp only
          rw [hms, htl]
          simp)
      rw [h] at ht
      exact absurd ht (by simp)

theorem nodup_of_plan_empty {root : Elem} (h : renamePlanOf root = []) :
    (globalNamesList root).Nodup := by
  rw [List.nodup_iff_count_le_one]
  intro a
  rw [count_names_eq]
  exact membersOf_short_of_plan_empty h a

theorem plan_empty_of_nodup {root : Elem} (h : (globalNamesList root).Nodup) :
    renamePlanOf root = [] := by
  have hmap : (renamePlanOf root).map (fun t => (t.1, t.2.1)) = [] := by
    rw [renamePlanOf_proj]
    apply List.flatMap_eq_nil_iff.mpr
    intro g hg
    have hcount := List.nodup_iff_count_le_one.mp h g.1
    rw [count_names_eq] at hcount
    have hg2 : g.2 = membersOf root g.1 := (mem_byName.mp hg).2
    cases hms : membersOf root g.1 with
    | nil => rw [hg2, hms]; simp
    | cons m tl =>
      rw [hms] at hcount
      simp only [List.length_cons] at hcount
      have : tl = [] := List.length_eq_zero.mp (by omega)
      rw [hg2, hms, this]
      simp
  exact List.map_eq_nil_iff.mp hmap

/-! ### Case analysis of a Resolver run -/

theorem fixCollisions_cases (root : Elem) :
    (root.tag ≠ q "schema" ∧ fixCollisions root = FixResult.rootErr) ∨
    (root.tag = q "schema" ∧ renamePlanOf root = [] ∧ fixCollisions root = FixResult.noDup) ∨
    (root.tag = q "schema" ∧ renamePlanOf root ≠ [] ∧
      fixCollisions root = FixResult.fixed (applyRenames root (renamePlanOf root)) 0) := by
  unfold fixCollisions
  by_cases ht : root.tag ≠ q "schema"
  · rw [if_pos ht]
    exact Or.inl ⟨ht, rfl⟩
  · rw [if_neg ht]
    push_neg at ht
    simp only []
    by_cases hp : (renamePlanOf root).isEmpty
    · rw [if_pos hp]
      exact Or.inr (Or.inl ⟨ht, List.isEmpty_iff.mp hp, rfl⟩)
    · rw [if_neg hp]
      rw [updAll_id]
      exact Or.inr (Or.inr ⟨ht, fun h => hp (by rw [h]; rfl), rfl⟩)

/-- **C2.** After the Resolver runs, the names of the global declarations of
the resulting document are pairwise distinct.  (The mechanism: every newly
chosen name is tested against the set of all already-existing plus
already-chosen names before acceptance — `pickName_not_mem` together with the
`planInv` invariant — so renamed members get fresh pairwise-distinct names
while each group's first member keeps the group's unique key.) -/
theorem C2_uniqueness : ∀ (root o : Elem), resolverDoc root = some o →
    (globalNamesList o).Nodup := by
  intro root o h
  unfold resolverDoc at h
  rcases fixCollisions_cases root with ⟨_, hc⟩ | ⟨_, hp, hc⟩ | ⟨_, _, hc⟩
  · rw [hc] at h
    exact absurd h (by simp)
  · rw [hc] at h
    simp only [Option.some.injEq] at h
    subst h
    exact nodup_of_plan_empty hp
  · rw [hc] at h
    simp only [Option.some.injEq] at h
    subst h
    exact nodup_names_applyRenames root

theorem C2_uniqueness_witness : (globalNamesList oB).Nodup :=
  C2_uniqueness docB oB (by rfl)

/-! ### C8: the first member of every duplicate group is stable -/

theorem renameChildren_get? (plan : List (Nat × String × String)) :
    ∀ (cs : List Elem) (j0 j : Nat),
    (renameChildren plan j0 cs).get? j = (cs.get? j).map (fun c =>
      match lookupIdx plan (j0 + j) with
      | some nw => setA c "name" nw.2
      | none => c) := by
  intro cs
  induction cs with
  | nil => intro j0 j; simp [renameChildren]
  | cons c rest ih =>
    intro j0 j
    cases j with
    | zero => simp [renameChildren]
    | succ j =>
      show (renameChildren plan (j0 + 1) rest).get? j = _
      rw [ih (j0 + 1) j]
      have : j0 + 1 + j = j0 + (j + 1) := by omega
      rw [this]
      rfl

/-- **C8.** For every name group in the input, the first member in document
order is not in the Resolver's rename plan, and its `name` attribute is
identical before and after the Resolver runs: only members after the first
are ever renamed. -/
theorem C8_canonical_stability : ∀ (root : Elem) (name : String) (ms : List (Nat × Elem))
    (j : Nat) (e : Elem), (name, ms) ∈ byName root → ms.head? = some (j, e) →
    (∀ t ∈ renamePlanOf root, t.1 ≠ j) ∧
    (∀ o : Elem, resolverDoc root = some o → childNameAt o j = childNameAt root j) := by
  intro root name ms j e hg hh
  have hnone := head_not_planned hg hh
  constructor
  · rw [← lookupIdx_none_iff]
    exact hnone
  · intro o ho
    unfold resolverDoc at ho
    rcases fixCollisions_cases root with ⟨_, hc⟩ | ⟨_, _, hc⟩ | ⟨_, _, hc⟩
    · rw [hc] at ho
      exact absurd ho (by simp)
    · rw [hc] at ho
      simp only [Option.some.injEq] at ho
      subst ho
      rfl
    · rw [hc] at ho
      simp only [Option.some.injEq] at ho
      subst ho
      unfold childNameAt applyRenames
      rw [children_mk_ofList, renameChildren_get?]
      cases hgc : root.children.get? j with
      | none => rfl
      | some c =>
        simp only [Option.map_some]
        show getA (match lookupIdx (renamePlanOf root) (0 + j) with
          | some nw => setA c "name" nw.2
          | none => c) "name" = getA c "name"
        rw [Nat.zero_add, hnone]

theorem C8_canonical_stability_witness :
    (∀ t ∈ renamePlanOf docB, t.1 ≠ 0) ∧ childNameAt oB 0 = childNameAt docB 0 := by
  have h := C8_canonical_stability docB "A" (membersOf docB "A") 0 (cT "A")
    (by
      have : byName docB = [("A", membersOf docB "A")] := rfl
      rw [this]
      exact List.mem_singleton.mpr rfl)
    (by rfl)
  exact ⟨h.1, h.2 oB (by rfl)⟩

/-! ### C10: idempotence -/

/-- **C10.** The Detector on a document with no duplicate global names reports
zero duplicate groups, and the Resolver run again on its own fixed output
reports "no duplicates to fix" — performing no mutation and writing no output
(the `noDup` outcome returns before any mutation or write). -/
theorem C10_idempotence :
    (∀ d : Elem, d.tag = q "schema" → (globalNamesList d).Nodup →
      findCollisions d = some []) ∧
    (∀ (root o : Elem) (u : Nat), fixCollisions root = FixResult.fixed o u →
      fixCollisions o = FixResult.noDup) := by
  constructor
  · intro d ht hnd
    unfold findCollisions
    rw [if_pos (by simpa using ht)]
    have : dupGroups d = [] := by
      unfold dupGroups
      rw [List.filter_eq_nil_iff]
      intro g hg
      have hcount := List.nodup_iff_count_le_one.mp hnd g.1
      rw [count_names_eq] at hcount
      have hg2 : g.2 = membersOf d g.1 := (mem_byName.mp hg).2
      simp only [decide_eq_true_eq]
      rw [hg2]
      omega
    rw [this]
  · intro root o u h
    rcases fixCollisions_cases root with ⟨_, hc⟩ | ⟨_, _, hc⟩ | ⟨ht, _, hc⟩
    · rw [hc] at h
      exact absurd h (by simp)
    · rw [hc] at h
      exact absurd h (by simp)
    · rw [hc] at h
      simp only [FixResult.fixed.injEq] at h
      have hnd : (globalNamesList o).Nodup := by
        rw [← h.1]
        exact nodup_names_applyRenames root
      have htag : o.tag = q "schema" := by
        rw [← h.1]
        exact ht
      unfold fixCollisions
      rw [if_neg (by simp [htag])]
      simp only []
      rw [if_pos (by rw [plan_empty_of_nodup hnd]; rfl)]

theorem C10_idempotence_witness :
    findCollisions oB = some [] ∧ fixCollisions oB = FixResult.noDup :=
  ⟨C10_idempotence.1 oB (by rfl) (by decide),
   C10_idempotence.2 docB oB 0 (by rfl)⟩

/-! ### C7: numbered fallback naming -/

/-- **C7.** For a duplicate-group member whose affinity is undetermined, the
chosen new name is the old name plus the fallback suffix instantiated with an
integer `N`: the first candidate uses `N = i`, the member's 1-based position
in its group, and on collision `N` is incremented until the name collides with
nothing in `chosen` — the set of already-existing plus already-chosen names
that the Resolver's plan fold (`planTail`) threads into `pickName`.  No name
is accepted while it is in that set, and every value from `i` up to the
accepted `N` was in it. -/
theorem C7_fallback_numbering : ∀ (node : Elem) (name : String) (chosen : List String)
    (i : Nat), guessAffinity node = none →
    ∃ N, i ≤ N ∧ pickName node name chosen i = name ++ fallbackSfx N ∧
      (name ++ fallbackSfx N) ∉ chosen ∧
      ∀ m, i ≤ m → m < N → (name ++ fallbackSfx m) ∈ chosen := by
  intro node name chosen i h
  exact pickName_least node name chosen i h

theorem C7_fallback_numbering_witness :
    ∃ N, 2 ≤ N ∧ pickName nodeW "A" ["A", "A_x2"] 2 = "A" ++ fallbackSfx N ∧
      ("A" ++ fallbackSfx N) ∉ ["A", "A_x2"] ∧
      ∀ m, 2 ≤ m → m < N → ("A" ++ fallbackSfx m) ∈ ["A", "A_x2"] :=
  C7_fallback_numbering nodeW "A" ["A", "A_x2"] 2 (by rfl)

theorem C3_ref_phase_noop_witness :
    (0 : Nat) = 0 ∧ oB = applyRenames docB (renamePlanOf docB) :=
  C3_ref_phase_noop docB oB 0 (by rfl)

/-! ### C9: process exit statuses -/

/-- C9 counterexample: the Finalizer performs no root-element check — on a
document whose root is not a schema element it still exits 0 (and runs),
contradicting the claim that every component exits non-zero in that case. -/
theorem C9_exit_counterexample : badE.tag ≠ q "schema" ∧ finalizeExit badE cFixed = 0 :=
  ⟨by decide, rfl⟩

/-- **C9 (amended).** The Detector and the Resolver exit non-zero (2) exactly
when the input root is not a schema element, producing no report/output in
that case, and exit zero otherwise — including when no duplicates are found;
the Finalizer performs no root check and always exits zero after a successful
parse. -/
theorem C9_exit_status_amended :
    (∀ d : Elem, (detectExit d = 0 ↔ d.tag = q "schema") ∧
      (d.tag ≠ q "schema" → findCollisions d = none ∧ detectExit d = 2)) ∧
    (∀ d : Elem, (fixExit d = 0 ↔ d.tag = q "schema") ∧
      (d.tag ≠ q "schema" → fixCollisions d = FixResult.rootErr ∧ fixExit d = 2)) ∧
    (∀ o f : Elem, finalizeExit o f = 0) := by
  refine ⟨?_, ?_, fun o f => rfl⟩
  · intro d
    unfold detectExit findCollisions
    by_cases h : d.tag = q "schema"
    · rw [if_pos (by simpa using h)]
      simp [h]
    · rw [if_neg (by simpa using h)]
      rw [if_neg (by simpa using h)]
      simp [h]
  · intro d
    unfold fixExit
    rcases fixCollisions_cases d with ⟨ht, hc⟩ | ⟨ht, _, hc⟩ | ⟨ht, _, hc⟩
    · rw [hc]
      simp [ht]
    · rw [hc]
      simp [ht]
    · rw [hc]
      simp [ht]

theorem C9_exit_status_witness :
    findCollisions badE = none ∧ detectExit badE = 2 ∧
    fixCollisions badE = FixResult.rootErr ∧ fixExit badE = 2 ∧ finalizeExit badE badE = 0 := by
  have h1 := C9_exit_status_amended.1 badE
  have h2 := C9_exit_status_amended.2.1 badE
  have h3 := C9_exit_status_amended.2.2 badE badE
  have hb : badE.tag ≠ q "schema" := by decide
  exact ⟨(h1.2 hb).1, (h1.2 hb).2, (h2.2 hb).1, (h2.2 hb).2, h3⟩

/-! ### The Finalizer's reference pass preserves global names -/

theorem finAllL_toList (plan : List (String × String)) : ∀ l : ElemList,
    ((finAllL plan l).1).toList = l.toList.map (fun c => (finAll plan c).1) := by
  intro l
  induction l using ElemList.rec (motive_1 := fun _ => True) with
  | mk _ _ _ _ _ => trivial
  | nil => rfl
  | cons e t _ iht =>
    show ((ElemList.cons (finAll plan e).1 (finAllL plan t).1)).toList = _
    rw [ElemList.toList, iht]
    rfl

theorem finAttr_pres (plan : List (String × String)) (st : Elem × Nat) (a : String)
    (ha : a ≠ "name") :
    (finAttr plan st a).1.tag = st.1.tag ∧
    getA (finAttr plan st a).1 "name" = getA st.1 "name" := by
  unfold finAttr
  cases hg : getA st.1 a with
  | none => exact ⟨rfl, rfl⟩
  | some v =>
    simp only
    by_cases hv : v = ""
    · rw [if_pos hv]
      exact ⟨rfl, rfl⟩
    · rw [if_neg hv]
      cases hl : lookupStr plan (splitQ v).2 with
      | none => exact ⟨rfl, rfl⟩
      | some nn =>
        exact ⟨tag_setA _ _ _, getA_setA_ne st.1 a _ "name" (fun h => ha h.symm)⟩

theorem finNode_pres (plan : List (String × String)) (e : Elem) :
    (finNode plan e).1.tag = e.tag ∧ getA (finNode plan e).1 "name" = getA e "name" := by
  unfold finNode refAttrs
  rw [List.foldl_cons, List.foldl_cons, List.foldl_cons, List.foldl_nil]
  have h1 := finAttr_pres plan (e, 0) "type" (by decide)
  have h2 := finAttr_pres plan (finAttr plan (e, 0) "type") "base" (by decide)
  have h3 := finAttr_pres plan (finAttr plan (finAttr plan (e, 0) "type") "base") "ref"
    (by decide)
  exact ⟨by rw [h3.1, h2.1, h1.1], by rw [h3.2, h2.2, h1.2]⟩

theorem finAll_top_pres (plan : List (String × String)) (c : Elem) :
    (finAll plan c).1.tag = c.tag ∧ getA (finAll plan c).1 "name" = getA c "name" := by
  cases c with
  | mk t a tx cs =>
    have hp := finNode_pres plan (Elem.mk t a tx cs)
    constructor
    · show (finNode plan (Elem.mk t a tx cs)).1.tag = _
      exact hp.1
    · show getA (Elem.mk (finNode plan (Elem.mk t a tx cs)).1.tag
        (finNode plan (Elem.mk t a tx cs)).1.attrs
        (finNode plan (Elem.mk t a tx cs)).1.text ((finAllL plan cs).1)) "name" = _
      have : getA (Elem.mk (finNode plan (Elem.mk t a tx cs)).1.tag
          (finNode plan (Elem.mk t a tx cs)).1.attrs
          (finNode plan (Elem.mk t a tx cs)).1.text ((finAllL plan cs).1)) "name" =
          getA (finNode plan (Elem.mk t a tx cs)).1 "name" := by
        unfold getA
        cases (finNode plan (Elem.mk t a tx cs)).1 with
        | mk t' a' tx' cs' => rfl
      rw [this]
      exact hp.2

theorem globalsFrom_map_pres (f : Elem → Elem)
    (hf : ∀ c, (f c).tag = c.tag ∧ getA (f c) "name" = getA c "name") :
    ∀ (cs : List Elem) (j : Nat),
    (globalsFrom j (cs.map f)).map (fun p => gName p.2) =
      (globalsFrom j cs).map (fun p => gName p.2) := by
  intro cs
  induction cs with
  | nil => intro j; rfl
  | cons c rest ih =>
    intro j
    rw [List.map_cons, globalsFrom, globalsFrom]
    have hglob : isGlobalDecl (f c) = isGlobalDecl c := by
      unfold isGlobalDecl
      rw [(hf c).1, (hf c).2]
    by_cases hg : isGlobalDecl c
    · rw [if_pos (by rw [hglob]; exact hg), if_pos hg]
      rw [List.map_cons, List.map_cons, ih (j + 1)]
      have : gName (f c) = gName c := by
        unfold gName
        rw [(hf c).2]
      rw [this]
    · rw [if_neg (by rw [hglob]; exact hg), if_neg hg]
      exact ih (j + 1)

theorem globalNamesList_finAll (plan : List (String × String)) (root : Elem) :
    globalNamesList ((finAll plan root).1) = globalNamesList root := by
  cases root with
  | mk t a tx cs =>
    show ((globalsFrom 0 ((finAllL plan cs).1).toList).map fun p => gName p.2) = _
    rw [finAllL_toList]
    exact globalsFrom_map_pres _ (finAll_top_pres plan) cs.toList 0

/-! ### The Finalizer's rename pass on global names -/

theorem isGlobalDecl_rdChild (plan : List (String × String)) (c : Elem) :
    isGlobalDecl (rdChild plan c) = isGlobalDecl c := by
  unfold rdChild
  by_cases hd : globalDefKinds.contains c.tag
  · rw [if_pos hd]
    cases hn : getA c "name" with
    | none => rfl
    | some nm =>
      show isGlobalDecl (match lookupStr plan nm with
        | some nn => setA c "name" nn
        | none => c) = isGlobalDecl c
      cases hl : lookupStr plan nm with
      | none => rfl
      | some nn =>
        show isGlobalDecl (setA c "name" nn) = isGlobalDecl c
        unfold isGlobalDecl
        rw [tag_setA, getA_setA_same, hn]
        rfl
  · rw [if_neg hd]

theorem gName_rdChild (plan : List (String × String)) (c : Elem)
    (hglob : isGlobalDecl c = true) : gName (rdChild plan c) = rdName plan c := by
  have hname : ∃ nm, getA c "name" = some nm := by
    unfold isGlobalDecl at hglob
    simp only [Bool.and_eq_true, Option.isSome_iff_exists] at hglob
    exact hglob.2
  obtain ⟨nm, hn⟩ := hname
  have hgn : gName c = nm := by unfold gName; rw [hn]; rfl
  unfold rdChild rdName
  by_cases hd : globalDefKinds.contains c.tag
  · rw [if_pos hd, if_pos hd, hn]
    show gName (match lookupStr plan nm with
      | some nn => setA c "name" nn
      | none => c) = (lookupStr plan (gName c)).getD (gName c)
    rw [hgn]
    cases hl : lookupStr plan nm with
    | none => simpa using hgn
    | some nn =>
      show gName (setA c "name" nn) = (some nn).getD nm
      rw [gName_setA_name]
      rfl
  · rw [if_neg hd, if_neg hd]

theorem globalsFrom_rdChild (plan : List (String × String)) : ∀ (cs : List Elem) (j : Nat),
    (globalsFrom j (cs.map (rdChild plan))).map (fun p => gName p.2) =
      (globalsFrom j cs).map (fun p => rdName plan p.2) := by
  intro cs
  induction cs with
  | nil => intro j; rfl
  | cons c rest ih =>
    intro j
    rw [List.map_cons, globalsFrom, globalsFrom]
    by_cases hg : isGlobalDecl c
    · rw [if_pos (by rw [isGlobalDecl_rdChild]; exact hg), if_pos hg]
      rw [List.map_cons, List.map_cons, ih (j + 1)]
      rw [gName_rdChild plan c hg]
    · rw [if_neg (by rw [isGlobalDecl_rdChild]; exact hg), if_neg hg]
      exact ih (j + 1)

theorem globalNamesList_renameDefs (plan : List (String × String)) (root : Elem) :
    globalNamesList (renameDefs plan root) =
      (globalsOf root).map (fun p => rdName plan p.2) := by
  show ((globalsFrom 0 (Elem.mk root.tag root.attrs root.text
    (ofList (root.children.map (rdChild plan)))).children).map fun p => gName p.2) = _
  rw [children_mk_ofList]
  exact globalsFrom_rdChild plan root.children 0

theorem lookupStr_mem {m : List (String × String)} {k v : String}
    (h : lookupStr m k = some v) : (k, v) ∈ m := by
  unfold lookupStr at h
  cases hf : m.find? (fun p => p.1 == k) with
  | none => rw [hf] at h; exact absurd h (by simp)
  | some p =>
    rw [hf] at h
    simp only [Option.some.injEq] at h
    have h1 : p.1 = k := by simpa using List.find?_some hf
    have h2 := List.mem_of_find?_eq_some hf
    have : (k, v) = p := by rw [← h1, ← h]
    rw [this]
    exact h2

/-! ### C1: reference integrity -/

theorem names_subset_out (root : Elem) :
    ∀ l ∈ globalNamesList root,
      l ∈ globalNamesList (applyRenames root (renamePlanOf root)) := by
  intro l hl
  rw [globalNamesList_applyRenames]
  unfold globalNamesList at hl
  rw [List.mem_map] at hl
  obtain ⟨p, hp, hpn⟩ := hl
  have hpm : p ∈ membersOf root l := mem_membersOf.mpr ⟨hp, hpn⟩
  cases hms : membersOf root l with
  | nil => rw [hms] at hpm; exact absurd hpm (by simp)
  | cons a tl =>
    have hgb : (l, membersOf root l) ∈ byName root := by
      rw [← hpn]
      exact byName_of_global hp
    have hhead : (membersOf root l).head? = some (a.1, a.2) := by rw [hms]; rfl
    have hnone := head_not_planned hgb hhead
    have hag := mem_membersOf.mp (show a ∈ membersOf root l by
      rw [hms]; exact List.mem_cons_self a tl)
    rw [List.mem_map]
    refine ⟨a, hag.1, ?_⟩
    unfold outN
    rw [hnone]
    exact hag.2

/-- C1 counterexample: on a duplicate group of global *elements* the Finalizer
rewrites the references to `FooType` but renames no declaration (it renames
only complexType/simpleType definitions), so a reference that resolved in the
input document is dangling in the output. -/
theorem C1_reference_integrity_counterexample :
    finalizeResult cOrig cFixed = some (cOut, 1) ∧
    "Foo" ∈ refLocalsOf cOrig ∧ "Foo" ∈ globalNamesList cOrig ∧
    refLocalsOf cOut = ["FooType"] ∧ "FooType" ∉ globalNamesList cOut :=
  ⟨rfl, by decide, by decide, rfl, by decide⟩

/-- **C1 (amended).** References that resolve before a run still resolve after
it: (1) the Resolver never introduces a dangling reference — every
`{type, base, ref}` local name that named a global declaration of the input
names a global declaration of the output; (2) the Finalizer never introduces a
dangling reference *provided* every plan key is the name of some global
complexType/simpleType declaration of the original document (the rewritten
referent of an input reference — `key ++ "Type"` when its local name is a plan
key, the unchanged local name otherwise — is a global name of the output). -/
theorem C1_reference_integrity_amended :
    (∀ (root o : Elem), resolverDoc root = some o →
      ∀ l ∈ refLocalsOf root, l ∈ globalNamesList root → l ∈ globalNamesList o) ∧
    (∀ (orig fxd O : Elem) (c : Nat), finalizeResult orig fxd = some (O, c) →
      (∀ k ∈ (renamePlanFin orig fxd).map Prod.fst,
        ∃ p ∈ globalsOf orig, globalDefKinds.contains p.2.tag = true ∧ gName p.2 = k) →
      ∀ l ∈ refLocalsOf orig, l ∈ globalNamesList orig →
        ((lookupStr (renamePlanFin orig fxd) l).getD l) ∈ globalNamesList O) := by
  constructor
  · intro root o ho l _ hname
    unfold resolverDoc at ho
    rcases fixCollisions_cases root with ⟨_, hc⟩ | ⟨_, _, hc⟩ | ⟨_, _, hc⟩
    · rw [hc] at ho
      exact absurd ho (by simp)
    · rw [hc] at ho
      simp only [Option.some.injEq] at ho
      subst ho
      exact hname
    · rw [hc] at ho
      simp only [Option.some.injEq] at ho
      subst ho
      exact names_subset_out root l hname
  · intro orig fxd O c hres hkeys l _ hname
    unfold finalizeResult at hres
    simp only [] at hres
    split at hres
    · exact absurd hres (by simp)
    · simp only [Option.some.injEq] at hres
      have hO : O = (finAll (renamePlanFin orig fxd)
          (renameDefs (renamePlanFin orig fxd) orig)).1 := by
        rw [hres]
      have hOn : globalNamesList O =
          (globalsOf orig).map (fun p => rdName (renamePlanFin orig fxd) p.2) := by
        rw [hO, globalNamesList_finAll, globalNamesList_renameDefs]
      rw [hOn]
      cases hlk : lookupStr (renamePlanFin orig fxd) l with
      | some nn =>
        have hk : l ∈ (renamePlanFin orig fxd).map Prod.fst := by
          rw [List.mem_map]
          exact ⟨(l, nn), lookupStr_mem hlk, rfl⟩
        obtain ⟨p, hp, hdef, hgn⟩ := hkeys l hk
        rw [List.mem_map]
        refine ⟨p, hp, ?_⟩
        unfold rdName
        rw [if_pos hdef, hgn, hlk]
      | none =>
        unfold globalNamesList at hname
        rw [List.mem_map] at hname
        obtain ⟨p, hp, hpn⟩ := hname
        rw [List.mem_map]
        refine ⟨p, hp, ?_⟩
        unfold rdName
        by_cases hd : globalDefKinds.contains p.2.tag
        · rw [if_pos hd, hpn, hlk]
        · rw [if_neg hd]
          exact hpn

theorem C1_reference_integrity_witness :
    "A" ∈ globalNamesList oB ∧
    ((lookupStr (renamePlanFin fOrig fFixed) "B").getD "B") ∈ globalNamesList fOut := by
  constructor
  · exact C1_reference_integrity_amended.1 docB oB (by rfl) "A" (by decide) (by decide)
  · refine C1_reference_integrity_amended.2 fOrig fFixed fOut 1 (by rfl) ?_ "B" (by decide)
      (by decide)
    intro k hk
    have hkeys : (renamePlanFin fOrig fFixed).map Prod.fst = ["B"] := rfl
    rw [hkeys] at hk
    have hkB : k = "B" := by simpa using hk
    subst hkB
    refine ⟨(0, cT "B"), ?_, by decide, by rfl⟩
    rw [show globalsOf fOrig = [(0, cT "B"), (1, cT "B")] from rfl]
    exact List.mem_cons_self _ _

/-! ### C5: attribute rewriting as a per-pair map (under distinct keys) -/

theorem nodupKeys_cons {p : String × String} {t : List (String × String)} :
    nodupKeys (p :: t) = true ↔ p.1 ∉ t.map Prod.fst ∧ nodupKeys t = true := by
  show (!(t.map Prod.fst).contains p.1 && nodupKeys t) = true ↔ _
  rw [Bool.and_eq_true, Bool.not_eq_true']
  constructor
  · rintro ⟨h1, h2⟩
    exact ⟨fun hc => by rw [contains_iff.mpr hc] at h1; exact absurd h1 (by simp), h2⟩
  · rintro ⟨h1, h2⟩
    refine ⟨?_, h2⟩
    cases hb : (t.map Prod.fst).contains p.1 with
    | false => rfl
    | true => exact absurd (contains_iff.mp hb) h1

theorem mem_eq_of_find? : ∀ (l : List (String × String)) (k : String), nodupKeys l = true →
    ∀ pr ∈ l, pr.1 = k → l.find? (fun p => p.1 == k) = some pr := by
  intro l
  induction l with
  | nil => intro k _ pr hpr; exact absurd hpr (by simp)
  | cons a0 t ih =>
    intro k hnd pr hpr hk
    obtain ⟨h1, h2⟩ := nodupKeys_cons.mp hnd
    rcases List.mem_cons.mp hpr with rfl | hpr
    · rw [List.find?]
      rw [show (pr.1 == k) = true by simpa using hk]
    · have hne : a0.1 ≠ k := by
        intro hc
        exact h1 (by rw [hc, ← hk]; exact List.mem_map_of_mem _ hpr)
      rw [List.find?]
      rw [show (a0.1 == k) = false by simpa using hne]
      exact ih k h2 pr hpr hk

theorem setPair_eq_map : ∀ (a : List (String × String)) (k v : String),
    (a.find? (fun p => p.1 == k)).isSome = true → nodupKeys a = true →
    setPair a k v = a.map (fun p => if p.1 = k then (k, v) else p) := by
  intro a
  induction a with
  | nil => intro k v hf _; rw [List.find?] at hf; exact absurd hf (by simp)
  | cons a0 t ih =>
    intro k v hf hnd
    obtain ⟨h1, h2⟩ := nodupKeys_cons.mp hnd
    obtain ⟨k0, v0⟩ := a0
    rw [setPair]
    by_cases hk : k0 = k
    · rw [if_pos hk]
      rw [List.map_cons]
      rw [show (if (k0, v0).1 = k then (k, v) else (k0, v0)) = (k, v) from if_pos hk]
      congr 1
      have : ∀ p ∈ t, (if p.1 = k then (k, v) else p) = p := by
        intro p hp
        rw [if_neg]
        intro hc
        exact h1 (by rw [hk, ← hc]; simpa using List.mem_map_of_mem Prod.fst hp)
      rw [List.map_congr_left this]
      exact (List.map_id t).symm ▸ rfl
    · rw [if_neg hk]
      rw [List.map_cons]
      rw [show (if (k0, v0).1 = k then (k, v) else (k0, v0)) = (k0, v0) from if_neg hk]
      congr 1
      apply ih
      · rw [List.find?] at hf
        rw [show ((k0, v0).1 == k) = false by simpa using hk] at hf
        exact hf
      · exact h2

theorem claimRefPair_fst (plan : List (String × String)) (p : String × String) :
    (claimRefPair plan p).1 = p.1 := by
  unfold claimRefPair
  by_cases h : refAttrs.contains p.1 = true ∧ p.2 ≠ ""
  · rw [if_pos h]
    cases lookupStr plan (splitQ p.2).2 with
    | some nn => rfl
    | none => rfl
  · rw [if_neg h]

theorem claimNamePair_fst (plan : List (String × String)) (t : String) (p : String × String) :
    (claimNamePair plan t p).1 = p.1 := by
  unfold claimNamePair
  by_cases h : globalDefKinds.contains t = true ∧ p.1 = "name"
  · rw [if_pos h]
    cases lookupStr plan p.2 with
    | some nn => rfl
    | none => rfl
  · rw [if_neg h]

theorem nodupKeys_map_fst_pres (f : (String × String) → String × String)
    (hf : ∀ p, (f p).1 = p.1) : ∀ l, nodupKeys (l.map f) = nodupKeys l := by
  intro l
  induction l with
  | nil => rfl
  | cons p t ih =>
    rw [List.map_cons]
    unfold nodupKeys
    rw [ih, hf]
    have : (t.map f).map Prod.fst = t.map Prod.fst := by
      rw [List.map_map]
      exact List.map_congr_left fun p _ => hf p
    rw [this]

theorem finAttr_eq_none {plan : List (String × String)} {st : Elem × Nat} {a : String}
    (h : getA st.1 a = none) : finAttr plan st a = st := by
  unfold finAttr
  rw [h]

theorem finAttr_eq_empty {plan : List (String × String)} {st : Elem × Nat} {a : String}
    {v : String} (h : getA st.1 a = some v) (hv : v = "") : finAttr plan st a = st := by
  unfold finAttr
  rw [h]
  simp only []
  rw [if_pos hv]

theorem finAttr_eq_skip {plan : List (String × String)} {st : Elem × Nat} {a : String}
    {v : String} (h : getA st.1 a = some v) (hv : v ≠ "")
    (hl : lookupStr plan (splitQ v).2 = none) : finAttr plan st a = st := by
  unfold finAttr
  rw [h]
  simp only []
  rw [if_neg hv, hl]

theorem finAttr_eq_set {plan : List (String × String)} {st : Elem × Nat} {a : String}
    {v nn : String} (h : getA st.1 a = some v) (hv : v ≠ "")
    (hl : lookupStr plan (splitQ v).2 = some nn) :
    finAttr plan st a = (setA st.1 a ((splitQ v).1 ++ nn), st.2 + 1) := by
  unfold finAttr
  rw [h]
  simp only []
  rw [if_neg hv, hl]

theorem stepFun_fst (plan : List (String × String)) (a : String) (p : String × String) :
    (if p.1 = a then claimRefPair plan p else p).1 = p.1 := by
  by_cases h : p.1 = a
  · rw [if_pos h, claimRefPair_fst]
  · rw [if_neg h]

theorem finAttr_fst (plan : List (String × String)) (st : Elem × Nat) (a : String)
    (ha : refAttrs.contains a = true) (hnd : nodupKeys st.1.attrs = true) :
    (finAttr plan st a).1 = Elem.mk st.1.tag
      (st.1.attrs.map (fun p => if p.1 = a then claimRefPair plan p else p))
      st.1.text st.1.kids := by
  have hkeyed : ∀ v, getA st.1 a = some v → ∀ p ∈ st.1.attrs, p.1 = a → p = (a, v) := by
    intro v hf p hp hpk
    have hfind := mem_eq_of_find? st.1.attrs a hnd p hp hpk
    unfold getA at hf
    rw [hfind] at hf
    simp only [Option.some.injEq] at hf
    have : p = (p.1, p.2) := rfl
    rw [this, hpk, hf]
  cases hf : getA st.1 a with
  | none =>
    rw [finAttr_eq_none hf]
    have hmap : st.1.attrs.map (fun p => if p.1 = a then claimRefPair plan p else p)
        = st.1.attrs := by
      have hpt : ∀ p ∈ st.1.attrs, (if p.1 = a then claimRefPair plan p else p) = p := by
        intro p hp
        rw [if_neg]
        intro hc
        have hfind := mem_eq_of_find? st.1.attrs a hnd p hp hc
        unfold getA at hf
        rw [hfind] at hf
        exact absurd hf (by simp)
      rw [List.map_congr_left hpt, List.map_id']
    rw [hmap]
    cases hst : st.1 with
    | mk t al tx cs => rfl
  | some v =>
    by_cases hv : v = ""
    · rw [finAttr_eq_empty hf hv]
      have hmap : st.1.attrs.map (fun p => if p.1 = a then claimRefPair plan p else p)
          = st.1.attrs := by
        have hpt : ∀ p ∈ st.1.attrs, (if p.1 = a then claimRefPair plan p else p) = p := by
          intro p hp
          by_cases hc : p.1 = a
          · rw [if_pos hc]
            have hpv : p = (a, v) := hkeyed v hf p hp hc
            unfold claimRefPair
            rw [if_neg]
            rw [hpv, hv]
            simp
          · rw [if_neg hc]
        rw [List.map_congr_left hpt, List.map_id']
      rw [hmap]
      cases hst : st.1 with
      | mk t al tx cs => rfl
    · cases hl : lookupStr plan (splitQ v).2 with
      | none =>
        rw [finAttr_eq_skip hf hv hl]
        have hmap : st.1.attrs.map (fun p => if p.1 = a then claimRefPair plan p else p)
            = st.1.attrs := by
          have hpt : ∀ p ∈ st.1.attrs, (if p.1 = a then claimRefPair plan p else p) = p := by
            intro p hp
            by_cases hc : p.1 = a
            · rw [if_pos hc]
              have hpv : p = (a, v) := hkeyed v hf p hp hc
              unfold claimRefPair
              rw [hpv]
              simp only []
              rw [if_pos (by exact ⟨ha, hv⟩), hl]
            · rw [if_neg hc]
          rw [List.map_congr_left hpt, List.map_id']
        rw [hmap]
        cases hst : st.1 with
        | mk t al tx cs => rfl
      | some nn =>
        rw [finAttr_eq_set hf hv hl]
        show setA st.1 a ((splitQ v).1 ++ nn) = _
        unfold setA
        congr 1
        rw [setPair_eq_map st.1.attrs a ((splitQ v).1 ++ nn)
          (by unfold getA at hf; cases hff : st.1.attrs.find? (fun p => p.1 == a) with
            | none => rw [hff] at hf; exact absurd hf (by simp)
            | some q => simp [hff]) hnd]
        apply List.map_congr_left
        intro p hp
        by_cases hc : p.1 = a
        · rw [if_pos hc, if_pos hc]
          have hpv : p = (a, v) := hkeyed v hf p hp hc
          unfold claimRefPair
          rw [hpv]
          simp only []
          rw [if_pos (by exact ⟨ha, hv⟩), hl]
        · rw [if_neg hc, if_neg hc]

theorem step_compose (plan : List (String × String)) (p : String × String) :
    (fun p => if p.1 = "ref" then claimRefPair plan p else p)
      ((fun p => if p.1 = "base" then claimRefPair plan p else p)
        ((fun p => if p.1 = "type" then claimRefPair plan p else p) p)) =
      claimRefPair plan p := by
  by_cases h1 : p.1 = "type"
  · simp only [if_pos h1]
    have hfst : (claimRefPair plan p).1 = "type" := by rw [claimRefPair_fst]; exact h1
    rw [if_neg (show ¬(claimRefPair plan p).1 = "base" by rw [hfst]; decide)]
    rw [if_neg (show ¬(claimRefPair plan p).1 = "ref" by rw [hfst]; decide)]
  · simp only [if_neg h1]
    by_cases h2 : p.1 = "base"
    · simp only [if_pos h2]
      have hfst : (claimRefPair plan p).1 = "base" := by rw [claimRefPair_fst]; exact h2
      rw [if_neg (show ¬(claimRefPair plan p).1 = "ref" by rw [hfst]; decide)]
    · simp only [if_neg h2]
      by_cases h3 : p.1 = "ref"
      · simp only [if_pos h3]
      · simp only [if_neg h3]
        unfold claimRefPair
        rw [if_neg]
        intro hcon
        have hmem : p.1 ∈ refAttrs := contains_iff.mp hcon.1
        simp only [refAttrs, List.mem_cons, List.not_mem_nil, or_false] at hmem
        rcases hmem with h | h | h
        · exact h1 h
        · exact h2 h
        · exact h3 h

theorem finNode_eq (plan : List (String × String)) (e : Elem) (hnd : nodupKeys e.attrs = true) :
    (finNode plan e).1 = Elem.mk e.tag (e.attrs.map (claimRefPair plan)) e.text e.kids := by
  unfold finNode refAttrs
  rw [List.foldl_cons, List.foldl_cons, List.foldl_cons, List.foldl_nil]
  have h1 := finAttr_fst plan (e, 0) "type" (by decide) hnd
  have hnd1 : nodupKeys (finAttr plan (e, 0) "type").1.attrs = true := by
    rw [h1]
    show nodupKeys (e.attrs.map _) = true
    rw [nodupKeys_map_fst_pres _ (stepFun_fst plan "type")]
    exact hnd
  have h2 := finAttr_fst plan (finAttr plan (e, 0) "type") "base" (by decide) hnd1
  have hnd2 : nodupKeys (finAttr plan (finAttr plan (e, 0) "type") "base").1.attrs = true := by
    rw [h2]
    show nodupKeys ((finAttr plan (e, 0) "type").1.attrs.map _) = true
    rw [nodupKeys_map_fst_pres _ (stepFun_fst plan "base")]
    exact hnd1
  have h3 := finAttr_fst plan (finAttr plan (finAttr plan (e, 0) "type") "base") "ref"
    (by decide) hnd2
  rw [h3, h2, h1]
  simp only [Elem.tag, Elem.attrs, Elem.text, Elem.kids]
  rw [List.map_map, List.map_map]
  congr 1
  apply List.map_congr_left
  intro p _
  show (fun p => if p.1 = "ref" then claimRefPair plan p else p)
      ((fun p => if p.1 = "base" then claimRefPair plan p else p)
        ((fun p => if p.1 = "type" then claimRefPair plan p else p) p)) = claimRefPair plan p
  exact step_compose plan p

theorem wfElem_parts {t : String} {a : List (String × String)} {tx : String} {cs : ElemList}
    (h : wfElem (Elem.mk t a tx cs) = true) : nodupKeys a = true ∧ wfL cs = true := by
  have h2 : (nodupKeys a && wfL cs) = true := h
  simpa [Bool.and_eq_true] using h2

theorem wfL_parts {e : Elem} {l : ElemList} (h : wfL (ElemList.cons e l) = true) :
    wfElem e = true ∧ wfL l = true := by
  have h2 : (wfElem e && wfL l) = true := h
  simpa [Bool.and_eq_true] using h2

theorem finAll_eq_claimDeep (plan : List (String × String)) : ∀ e : Elem, wfElem e = true →
    (finAll plan e).1 = claimDeep plan e := by
  intro e
  induction e using Elem.rec
    (motive_2 := fun l => wfL l = true → (finAllL plan l).1 = claimDeepL plan l) with
  | mk t a tx cs ihl =>
    intro hwf
    obtain ⟨hnd, hcs⟩ := wfElem_parts hwf
    show Elem.mk (finNode plan (Elem.mk t a tx cs)).1.tag
      (finNode plan (Elem.mk t a tx cs)).1.attrs
      (finNode plan (Elem.mk t a tx cs)).1.text ((finAllL plan cs).1) =
        claimDeep plan (Elem.mk t a tx cs)
    rw [finNode_eq plan (Elem.mk t a tx cs) hnd]
    simp only [Elem.tag, Elem.attrs, Elem.text]
    rw [ihl hcs]
    rfl
  | nil => rfl
  | cons e l ihe ihl =>
    rename_i hwf
    obtain ⟨he, hl⟩ := wfL_parts hwf
    show ElemList.cons (finAll plan e).1 ((finAllL plan l).1) =
      ElemList.cons (claimDeep plan e) (claimDeepL plan l)
    rw [ihe he, ihl hl]

theorem rdChild_eq_claim (plan : List (String × String)) : ∀ (c : Elem),
    nodupKeys c.attrs = true →
    rdChild plan c = Elem.mk c.tag (c.attrs.map (claimNamePair plan c.tag)) c.text c.kids := by
  intro c hnd
  cases c with
  | mk t al tx cs =>
    show rdChild plan (Elem.mk t al tx cs) = Elem.mk t (al.map (claimNamePair plan t)) tx cs
    unfold rdChild
    by_cases hd : globalDefKinds.contains t
    · rw [if_pos (show globalDefKinds.contains (Elem.mk t al tx cs).tag = true from hd)]
      cases hn : getA (Elem.mk t al tx cs) "name" with
      | none =>
        have hmap : al.map (claimNamePair plan t) = al := by
          refine (List.map_congr_left ?_).trans (List.map_id' al)
          intro p hp
          unfold claimNamePair
          by_cases hpn : p.1 = "name"
          · exfalso
            have hfind := mem_eq_of_find? al "name" hnd p hp hpn
            unfold getA at hn
            simp only [Elem.attrs] at hn
            rw [hfind] at hn
            exact absurd hn (by simp)
          · rw [if_neg (fun hcon => hpn hcon.2)]
        rw [hmap]
      | some nm =>
        have hkeyed : ∀ p ∈ al, p.1 = "name" → p = ("name", nm) := by
          intro p hp hpn
          have hfind := mem_eq_of_find? al "name" hnd p hp hpn
          unfold getA at hn
          simp only [Elem.attrs] at hn
          rw [hfind] at hn
          simp only [Option.some.injEq] at hn
          have hpe : p = (p.1, p.2) := rfl
          rw [hpe, hpn, hn]
        show (match lookupStr plan nm with
          | some nn => setA (Elem.mk t al tx cs) "name" nn
          | none => Elem.mk t al tx cs) = _
        cases hl : lookupStr plan nm with
        | none =>
          have hmap : al.map (claimNamePair plan t) = al := by
            refine (List.map_congr_left ?_).trans (List.map_id' al)
            intro p hp
            by_cases hpn : p.1 = "name"
            · have hpv := hkeyed p hp hpn
              unfold claimNamePair
              rw [hpv]
              simp only []
              rw [if_pos ⟨hd, by trivial⟩, hl]
            · unfold claimNamePair
              rw [if_neg (fun hcon => hpn hcon.2)]
          rw [hmap]
        | some nn =>
          show setA (Elem.mk t al tx cs) "name" nn = _
          unfold setA
          show Elem.mk t (setPair al "name" nn) tx cs = _
          congr 1
          rw [setPair_eq_map al "name" nn
            (by
              unfold getA at hn
              simp only [Elem.attrs] at hn
              cases hff : al.find? (fun p => p.1 == "name") with
              | none => rw [hff] at hn; exact absurd hn (by simp)
              | some qq => simp [hff]) hnd]
          apply List.map_congr_left
          intro p hp
          by_cases hpn : p.1 = "name"
          · rw [if_pos hpn]
            have hpv := hkeyed p hp hpn
            unfold claimNamePair
            rw [hpv]
            simp only []
            rw [if_pos ⟨hd, by trivial⟩, hl]
          · rw [if_neg hpn]
            unfold claimNamePair
            rw [if_neg (fun hcon => hpn hcon.2)]
    · rw [if_neg (show ¬globalDefKinds.contains (Elem.mk t al tx cs).tag = true from hd)]
      have hmap : al.map (claimNamePair plan t) = al := by
        refine (List.map_congr_left ?_).trans (List.map_id' al)
        intro p hp
        unfold claimNamePair
        rw [if_neg (fun hcon => hd hcon.1)]
      rw [hmap]

theorem finAllL_ofList (plan : List (String × String)) : ∀ L : List Elem,
    (finAllL plan (ofList L)).1 = ofList (L.map fun c => (finAll plan c).1) := by
  intro L
  induction L with
  | nil => rfl
  | cons e t ih =>
    show ElemList.cons (finAll plan e).1 ((finAllL plan (ofList t)).1) = _
    rw [ih]
    rfl

theorem wfL_mem : ∀ l : ElemList, wfL l = true → ∀ c ∈ l.toList, wfElem c = true := by
  intro l
  induction l using ElemList.rec (motive_1 := fun _ => True) with
  | mk _ _ _ _ _ => trivial
  | nil =>
    intro _ c hc
    exact absurd hc (List.not_mem_nil c)
  | cons e t _ iht =>
    intro hwf c hc
    obtain ⟨he, ht⟩ := wfL_parts hwf
    rcases List.mem_cons.mp hc with rfl | hc
    · exact he
    · exact iht ht c hc

theorem wfElem_nodup {c : Elem} (h : wfElem c = true) : nodupKeys c.attrs = true := by
  cases c with
  | mk t a tx cs => exact (wfElem_parts h).1

theorem wfElem_rdChild (plan : List (String × String)) (c : Elem) (h : wfElem c = true) :
    wfElem (rdChild plan c) = true := by
  cases c with
  | mk t al tx cs =>
    obtain ⟨hnd, hcs⟩ := wfElem_parts h
    rw [rdChild_eq_claim plan (Elem.mk t al tx cs) hnd]
    show (nodupKeys (al.map (claimNamePair plan t)) && wfL cs) = true
    rw [nodupKeys_map_fst_pres _ (claimNamePair_fst plan t)]
    rw [Bool.and_eq_true]
    exact ⟨hnd, hcs⟩

theorem finAll_mk (plan : List (String × String)) (t : String)
    (a : List (String × String)) (tx : String) (K : ElemList) (hnd : nodupKeys a = true) :
    (finAll plan (Elem.mk t a tx K)).1 =
      Elem.mk t (a.map (claimRefPair plan)) tx ((finAllL plan K).1) := by
  show Elem.mk (finNode plan (Elem.mk t a tx K)).1.tag (finNode plan (Elem.mk t a tx K)).1.attrs
    (finNode plan (Elem.mk t a tx K)).1.text ((finAllL plan K).1) = _
  rw [finNode_eq plan (Elem.mk t a tx K) hnd]
  simp only [Elem.tag, Elem.attrs, Elem.text]

/-- **C5.** Applying the Finalizer's plan to the original document renames
exactly the global complexType/simpleType declarations whose name is a plan
key (never global element declarations), and rewrites every `{type, base,
ref}` attribute anywhere in the document whose local-name portion is a plan
key to the new name, preserving the namespace prefix exactly (one claim-side
pass `claimApply` against the source's two passes, on any document without
duplicated attribute keys); concretely, `tns:Foo` with `Foo` renamed to
`FooType` becomes `tns:FooType`, and unprefixed `Foo` becomes `FooType`. -/
theorem C5_finalizer_apply :
    (∀ (plan : List (String × String)) (orig : Elem), wfElem orig = true →
      (finAll plan (renameDefs plan orig)).1 = claimApply plan orig) ∧
    (finAttr [("Foo", "FooType")]
        (Elem.mk (q "element") [("type", "tns:Foo")] "" ElemList.nil, 0) "type").1 =
      Elem.mk (q "element") [("type", "tns:FooType")] "" ElemList.nil ∧
    (finAttr [("Foo", "FooType")]
        (Elem.mk (q "element") [("type", "Foo")] "" ElemList.nil, 0) "type").1 =
      Elem.mk (q "element") [("type", "FooType")] "" ElemList.nil := by
  refine ⟨?_, rfl, rfl⟩
  intro plan orig hwf
  cases orig with
  | mk t a tx cs =>
    obtain ⟨hnd, hcs⟩ := wfElem_parts hwf
    have h1 : renameDefs plan (Elem.mk t a tx cs) =
        Elem.mk t a tx (ofList (cs.toList.map (rdChild plan))) := rfl
    rw [h1, finAll_mk plan t a tx _ hnd, finAllL_ofList, List.map_map]
    show Elem.mk t (a.map (claimRefPair plan)) tx
      (ofList (cs.toList.map ((fun c => (finAll plan c).1) ∘ rdChild plan))) =
      Elem.mk t (a.map (claimRefPair plan)) tx
        (ofList (cs.toList.map fun c => claimDeep plan
          (Elem.mk c.tag (c.attrs.map (claimNamePair plan c.tag)) c.text c.kids)))
    refine congrArg (Elem.mk t (a.map (claimRefPair plan)) tx)
      (congrArg ofList (List.map_congr_left ?_))
    intro c hc
    have hwc : wfElem c = true := wfL_mem cs hcs c hc
    show (finAll plan (rdChild plan c)).1 = _
    rw [finAll_eq_claimDeep plan (rdChild plan c) (wfElem_rdChild plan c hwc)]
    rw [rdChild_eq_claim plan c (wfElem_nodup hwc)]

theorem C5_finalizer_apply_witness :
    (finAll (renamePlanFin fOrig fFixed)
      (renameDefs (renamePlanFin fOrig fFixed) fOrig)).1 =
      claimApply (renamePlanFin fOrig fFixed) fOrig :=
  C5_finalizer_apply.1 (renamePlanFin fOrig fFixed) fOrig (by rfl)
